import Mathlib

/-!
# Verification of the alphabet reactive core

This file gives a shallow embedding, in Lean 4, of the reactive
state-to-document synchronization engine of the `alphabet` repository:

* the proxy-based change registry (`ReactiveProxy`, file `src/unnamed/part_005`),
* the update scheduler (`ReactiveUpdate`, file `src/src/reactive-dom/update.ts`),
* the document observation layer (`ReactiveDOM`, file `src/src/reactive-dom/dom.ts`),

and proves or refutes the behavioural claims C1-C10 about them.

Modelling conventions:

* JavaScript runtime values are modelled by the inductive type `JVal`
  (trees; integers stand in for JS numbers, association lists for the
  own-property tables of plain objects, and arrays carry both their
  element list and their extra non-index own properties).  Reference
  identity and in-graph sharing are not representable in `JVal`; a
  separate explicit-heap model (`HVal`/`Heap`, further below) is used for
  the one claim (C9) whose content is aliasing.
* Class bodies in the source are TypeScript classes, hence strict-mode
  code; property writes on primitives therefore throw, which the model
  renders as `Option`/`none`.
* Effectful code (event dispatch, observer attachment, logging) is
  modelled by explicit effect traces returned next to the new state.
-/

namespace Alphabet

/-- JS runtime values as trees.  `vArr es ps` is an array with element
list `es` and additional non-index own properties `ps` (JS arrays are
objects and accept arbitrary extra keys). -/
inductive JVal : Type where
  | vUndefined : JVal
  | vNull : JVal
  | vBool : Bool → JVal
  | vNum : Int → JVal
  | vStr : String → JVal
  | vObj : List (String × JVal) → JVal
  | vArr : List JVal → List (String × JVal) → JVal

/-- JS own-property update on an association list: an existing key keeps
its position (JS property tables preserve insertion order on update), a
new key is appended. -/
def assocSet : List (String × JVal) → String → JVal → List (String × JVal)
  | [], k, v => [(k, v)]
  | (k', v') :: rest, k, v =>
      if k' = k then (k', v) :: rest else (k', v') :: assocSet rest k v

/-- JS truthiness (`!x` in the source tests the negation of this).  The
model has no NaN: numbers are integers. -/
def truthy : JVal → Bool
  | .vUndefined => false
  | .vNull => false
  | .vBool b => b
  | .vNum n => n != 0
  | .vStr s => !s.isEmpty
  | .vObj _ => true
  | .vArr _ _ => true

/-- `typeof x === 'object'` (true for null, plain objects and arrays). -/
def typeofObject : JVal → Bool
  | .vNull => true
  | .vObj _ => true
  | .vArr _ _ => true
  | _ => false

/-- Is the value a plain object or an array (a mutable container)? -/
def isContainer : JVal → Bool
  | .vObj _ => true
  | .vArr _ _ => true
  | _ => false

/-- Numeric value of a digit string. -/
def digitsToNat (cs : List Char) : Nat :=
  cs.foldl (fun acc c => acc * 10 + (c.toNat - 48)) 0

/-- Does the string denote a canonical JS array index (the property keys
an array treats as indices): nonempty, all digits, no superfluous
leading zero, below 2^32 - 1? -/
def isCanonIndex (s : String) : Bool :=
  let cs := s.toList
  !cs.isEmpty && cs.all Char.isDigit &&
    (cs = ['0'] || cs.head? != some '0') &&
    digitsToNat cs < 4294967295

/-- The array index denoted by a canonical index string. -/
def strIndex (s : String) : Nat := digitsToNat s.toList

/-- JS property read `obj[k]` as the proxy get trap performs it (the
trap returns `obj[prop]`, re-wrapping objects in proxies, which is
value-transparent).  Reads on `undefined`/`null` throw in JS; they are
mapped to `vUndefined` here and only occur in the model on executions that
fail immediately afterwards in any case (see `setProp`). -/
def getProp : JVal → String → JVal
  | .vObj fs, k => (fs.lookup k).getD .vUndefined
  | .vArr es ps, k =>
      if k = "length" then .vNum es.length
      else if isCanonIndex k then es.getD (strIndex k) .vUndefined
      else (ps.lookup k).getD .vUndefined
  | .vStr s, k =>
      if k = "length" then .vNum s.length
      else if isCanonIndex k then
        match s.toList.get? (strIndex k) with
        | some c => .vStr (String.mk [c])
        | none => .vUndefined
      else .vUndefined
  | _, _ => .vUndefined

/-- JS `ToUint32`-compatible array-length coercion: `some n` when
`arr.length = v` succeeds and sets the length to `n`, `none` when it
throws (`RangeError`, or `TypeError` for non-coercible values).  The
successful cases are exactly those where `ToUint32 v` and `ToNumber v`
agree. -/
def toArrayLength : JVal → Option Nat
  | .vNum n => if 0 ≤ n ∧ n < 4294967296 then some n.toNat else none
  | .vStr s =>
      let cs := s.toList
      if !cs.isEmpty && cs.all Char.isDigit && digitsToNat cs < 4294967296 then
        some (digitsToNat cs)
      else none
  | .vBool b => some (if b then 1 else 0)
  | .vNull => some 0
  | _ => none

/-- Element write `es[i] := v`, padding with holes (read back as
`undefined`) when `i` is beyond the current length, as JS arrays do. -/
def listSetPad (es : List JVal) (i : Nat) (v : JVal) : List JVal :=
  if i < es.length then es.set i v
  else es ++ List.replicate (i - es.length) .vUndefined ++ [v]

/-- Resizing an array to length `n` (truncate, or extend with holes). -/
def resizeTo (es : List JVal) (n : Nat) : List JVal :=
  if n ≤ es.length then es.take n else es ++ List.replicate (n - es.length) .vUndefined

/-- Strict-mode JS property write `obj[k] = v`: `none` models a thrown
`TypeError` (write on a primitive, `undefined` or `null`) or
`RangeError` (bad array length). -/
def setProp : JVal → String → JVal → Option JVal
  | .vObj fs, k, v => some (.vObj (assocSet fs k v))
  | .vArr es ps, k, v =>
      if k = "length" then (toArrayLength v).map (fun n => .vArr (resizeTo es n) ps)
      else if isCanonIndex k then some (.vArr (listSetPad es (strIndex k) v) ps)
      else some (.vArr es (assocSet ps k v))
  | _, _, _ => none

/-- `\w` of the source's segment regex (ASCII word character). -/
def isWordChar (c : Char) : Bool := c.isAlphanum || c = '_'

/-- The segment regex `^(\w+)\[(\d+)\]$` used by both `ReactiveProxy.set`
(line 133) and `ReactiveProxy.get` (line 161).  On a match it yields the
two capture groups; the index capture is kept as a *string* because the
source indexes with the captured string, never with a parsed number. -/
def parseSegment (s : String) : Option (String × String) :=
  match s.toList.takeWhile isWordChar, s.toList.dropWhile isWordChar with
  | [], _ => none
  | name :: names, '[' :: rest2 =>
      if !(rest2.takeWhile Char.isDigit).isEmpty && rest2.dropWhile Char.isDigit = [']'] then
        some (String.mk (name :: names), String.mk (rest2.takeWhile Char.isDigit))
      else none
  | _ :: _, _ => none

/-- `path.split('.')` of JS, implemented over the character list so that
it evaluates inside the kernel.  Always returns at least one segment. -/
def splitAux : List Char → List Char → List (List Char)
  | [], acc => [acc.reverse]
  | c :: rest, acc =>
      if c = '.' then acc.reverse :: splitAux rest [] else splitAux rest (c :: acc)

/-- Split a path on dots, as `path.split('.')` does. -/
def splitPath (p : String) : List String := (splitAux p.toList []).map String.mk

/-- One step of `ReactiveProxy.get`'s reduce (source lines 160-169):
`obj?.[arrayName]?.[index]` for a bracket segment, `obj?.[key]`
otherwise. -/
def getStep (cur : JVal) (k : String) : JVal :=
  match cur with
  | .vUndefined => .vUndefined
  | .vNull => .vUndefined
  | _ =>
    match parseSegment k with
    | some (name, idxStr) =>
        match getProp cur name with
        | .vUndefined => .vUndefined
        | .vNull => .vUndefined
        | a => getProp a idxStr
    | none => getProp cur k

/-- `ReactiveProxy.get` on a pre-split key list. -/
def jsGetKeys (root : JVal) (keys : List String) : JVal := keys.foldl getStep root

/-- `ReactiveProxy.get(path)` (source lines 159-170), reading through
the proxy from the wrapped root value. -/
def jsGet (root : JVal) (path : String) : JVal := jsGetKeys root (splitPath path)

/-- The walk of `ReactiveProxy.set` (source lines 127-154) on a
pre-split key list, with functional write-back standing in for the
source's in-place mutation (equivalent on tree-shaped targets).  All
but the last key are parsed with the segment regex and missing/falsy
(and for plain keys, non-`object`) containers are created; the last key
is written *unparsed* (`current[lastKey] = value`, line 153).  `none`
models a thrown error. -/
def setKeys : JVal → List String → JVal → Option JVal
  | _, [], _ => none
  | cur, [k], v => setProp cur k v
  | cur, k :: k2 :: ks, v =>
    match parseSegment k with
    | some (name, idxStr) =>
        -- if (!current[arrayName]) { current[arrayName] = [] }
        (if truthy (getProp cur name) then some (cur, getProp cur name)
         else (setProp cur name (.vArr [] [])).map (fun cur1 => (cur1, JVal.vArr [] []))).bind
          (fun p =>
            -- if (!current[arrayName][index]) { current[arrayName][index] = {} }
            (if truthy (getProp p.2 idxStr) then some p.2
             else setProp p.2 idxStr (.vObj [])).bind
              (fun a2 =>
                -- current = current[arrayName][index], then recurse and write back
                (setKeys (getProp a2 idxStr) (k2 :: ks) v).bind
                  (fun child' =>
                    (setProp a2 idxStr child').bind
                      (fun a3 => setProp p.1 name a3))))
    | none =>
        -- if (!current[key] || typeof current[key] !== 'object') { current[key] = {} }
        (if !(truthy (getProp cur k) && typeofObject (getProp cur k))
         then setProp cur k (.vObj []) else some cur).bind
          (fun cur1 =>
            (setKeys (if !(truthy (getProp cur k) && typeofObject (getProp cur k))
                      then .vObj [] else getProp cur k) (k2 :: ks) v).bind
              (fun child' => setProp cur1 k child'))

/-- `ReactiveProxy.set(path, value)` (source lines 127-154).  The
notifications fired along the way by the proxy set traps do not affect
the stored value and are modelled separately (see `nestedSetTrap`). -/
def jsSet (root : JVal) (path : String) (v : JVal) : Option JVal :=
  setKeys root (splitPath path) v

theorem assocSet_lookup (fs : List (String × JVal)) (k : String) (v : JVal) :
    (assocSet fs k v).lookup k = some v := by
  induction fs with
  | nil => simp [assocSet]
  | cons p rest ih =>
      obtain ⟨k', v'⟩ := p
      by_cases h : k' = k
      · subst h
        simp [assocSet]
      · simp only [assocSet, if_neg h, List.lookup_cons]
        have : (k == k') = false := by simp [Ne.symm h]
        simp [this, ih]

theorem listSetPad_getElem (es : List JVal) (i : Nat) (v : JVal) :
    (listSetPad es i v)[i]? = some v := by
  unfold listSetPad
  by_cases h : i < es.length
  · simp [h, List.getElem?_set_self h]
  · push_neg at h
    rw [if_neg (by omega)]
    have hlen : (es ++ List.replicate (i - es.length) JVal.vUndefined).length = i := by
      simp [List.length_replicate]; omega
    rw [List.getElem?_append_right hlen.le, hlen]
    simp

theorem resizeTo_length (es : List JVal) (n : Nat) : (resizeTo es n).length = n := by
  unfold resizeTo
  split
  · simp [List.length_take]; omega
  · simp [List.length_replicate]; omega

theorem toArrayLength_container {v : JVal} (h : isContainer v = true) :
    toArrayLength v = none := by
  cases v <;> simp_all [isContainer, toArrayLength]

theorem setProp_isContainer {c : JVal} {k : String} {v c' : JVal}
    (h : setProp c k v = some c') : isContainer c' = true := by
  cases c with
  | vObj fs =>
      simp [setProp] at h
      simp [← h, isContainer]
  | vArr es ps =>
      simp only [setProp] at h
      split at h
      · rcases Option.map_eq_some'.mp h with ⟨n, -, rfl⟩
        rfl
      · split at h <;> (cases h; rfl)
  | vUndefined => simp [setProp] at h
  | vNull => simp [setProp] at h
  | vBool b => simp [setProp] at h
  | vNum n => simp [setProp] at h
  | vStr s => simp [setProp] at h

theorem setKeys_isContainer : ∀ (keys : List String) (cur v c' : JVal),
    setKeys cur keys v = some c' → isContainer c' = true := by
  intro keys
  match keys with
  | [] => intro cur v c' h; simp [setKeys] at h
  | [k] => intro cur v c' h; exact setProp_isContainer h
  | k :: k2 :: ks =>
      intro cur v c' h
      simp only [setKeys] at h
      split at h
      · obtain ⟨p, -, h⟩ := Option.bind_eq_some.mp h
        obtain ⟨a2, -, h⟩ := Option.bind_eq_some.mp h
        obtain ⟨child', -, h⟩ := Option.bind_eq_some.mp h
        obtain ⟨a3, -, h⟩ := Option.bind_eq_some.mp h
        exact setProp_isContainer h
      · obtain ⟨cur1, -, h⟩ := Option.bind_eq_some.mp h
        obtain ⟨child', -, h⟩ := Option.bind_eq_some.mp h
        exact setProp_isContainer h

theorem parseSegment_idx_digits {s n i : String} (h : parseSegment s = some (n, i)) :
    i.toList.all Char.isDigit = true ∧ i.toList ≠ [] := by
  unfold parseSegment at h
  split at h
  · exact absurd h (by simp)
  · rename_i name names rest2 heq1 heq2
    split at h
    · rename_i hcond
      cases h
      refine ⟨List.all_takeWhile, ?_⟩
      intro hnil
      rw [show (String.mk (List.takeWhile Char.isDigit rest2)).toList
            = List.takeWhile Char.isDigit rest2 from rfl] at hnil
      simp [hnil] at hcond
    · exact absurd h (by simp)
  · exact absurd h (by simp)

theorem parseSegment_idx_ne_length {s n i : String} (h : parseSegment s = some (n, i)) :
    i ≠ "length" := by
  intro hlen
  subst hlen
  have := (parseSegment_idx_digits h).1
  simp [String.toList] at this

/-- Reading back a successfully written property yields the written
value; the array-`length` coercion is the one exception, excluded here
by requiring the written value to be a number in that case. -/
theorem getProp_setProp {c : JVal} {k : String} {v c' : JVal}
    (h : setProp c k v = some c')
    (hlen : ∀ es ps, c = JVal.vArr es ps → k = "length" → ∃ m : Int, v = JVal.vNum m) :
    getProp c' k = v := by
  cases c with
  | vObj fs =>
      simp only [setProp, Option.some.injEq] at h
      simp [← h, getProp, assocSet_lookup]
  | vArr es ps =>
      by_cases hk : k = "length"
      · subst hk
        obtain ⟨m, rfl⟩ := hlen es ps rfl rfl
        simp only [setProp] at h
        rw [if_true] at h
        simp only [toArrayLength] at h
        split at h
        · rename_i hm
          simp only [Option.map_some', Option.some.injEq] at h
          simp [← h, getProp, resizeTo_length, Int.toNat_of_nonneg hm.1]
        · simp at h
      · by_cases hci : isCanonIndex k
        · simp only [setProp, if_neg hk, if_pos hci, Option.some.injEq] at h
          subst h
          simp [getProp, hk, hci, List.getD_eq_getElem?_getD, listSetPad_getElem]
        · simp only [setProp, if_neg hk, if_neg hci, Option.some.injEq] at h
          subst h
          simp [getProp, hk, hci, assocSet_lookup]
  | vUndefined => simp [setProp] at h
  | vNull => simp [setProp] at h
  | vBool b => simp [setProp] at h
  | vNum n => simp [setProp] at h
  | vStr s => simp [setProp] at h

theorem getStep_of_container {c : JVal} (hc : isContainer c = true) (k : String) :
    getStep c k = match parseSegment k with
      | some (name, idxStr) =>
          match getProp c name with
          | .vUndefined => .vUndefined
          | .vNull => .vUndefined
          | a => getProp a idxStr
      | none => getProp c k := by
  cases c <;> simp_all [isContainer, getStep]

theorem setKeys_roundtrip : ∀ (keys : List String) (cur cur' v : JVal),
    setKeys cur keys v = some cur' →
    (∀ lk, keys.getLast? = some lk →
        parseSegment lk = none ∧ (lk = "length" → ∃ m : Int, v = JVal.vNum m)) →
    jsGetKeys cur' keys = v := by
  intro keys
  induction keys with
  | nil => intro cur cur' v h _; simp [setKeys] at h
  | cons k rest ih =>
      intro cur cur' v h hlast
      cases rest with
      | nil =>
          obtain ⟨hplain, hnum⟩ := hlast k rfl
          have hcont := setProp_isContainer h
          have hgp : getProp cur' k = v := by
            refine getProp_setProp h ?_
            intro es ps hc hk
            exact hnum hk
          simpa [jsGetKeys, getStep_of_container hcont, hplain] using hgp
      | cons k2 ks =>
          have hlast' : ∀ lk, (k2 :: ks).getLast? = some lk →
              parseSegment lk = none ∧ (lk = "length" → ∃ m : Int, v = JVal.vNum m) := by
            intro lk hlk
            exact hlast lk (by simpa [List.getLast?_cons_cons] using hlk)
          simp only [setKeys] at h
          have hfold : jsGetKeys cur' (k :: k2 :: ks) = jsGetKeys (getStep cur' k) (k2 :: ks) := rfl
          split at h
          · -- bracket segment
            rename_i name idxStr hparse
            obtain ⟨p, -, h⟩ := Option.bind_eq_some.mp h
            obtain ⟨a2, -, h⟩ := Option.bind_eq_some.mp h
            obtain ⟨child', hrec, h⟩ := Option.bind_eq_some.mp h
            obtain ⟨a3, hname, h⟩ := Option.bind_eq_some.mp h
            -- h : setProp p.1 name a3 = some cur'
            have hcur' := setProp_isContainer h
            have ha3c := setProp_isContainer hname
            have hgp1 : getProp cur' name = a3 := by
              refine getProp_setProp h ?_
              intro es ps hc hk
              exfalso
              rw [hc, hk] at h
              simp only [setProp] at h
              rw [if_true, toArrayLength_container ha3c] at h
              simp at h
            have hgp2 : getProp a3 idxStr = child' := by
              refine getProp_setProp hname ?_
              intro es ps hc hk
              exact absurd hk (parseSegment_idx_ne_length hparse)
            have hstep : getStep cur' k = child' := by
              cases a3 with
              | vObj fs =>
                  rw [getStep_of_container hcur']
                  simp only [hparse, hgp1]
                  exact hgp2
              | vArr es2 ps2 =>
                  rw [getStep_of_container hcur']
                  simp only [hparse, hgp1]
                  exact hgp2
              | vUndefined => simp [isContainer] at ha3c
              | vNull => simp [isContainer] at ha3c
              | vBool b => simp [isContainer] at ha3c
              | vNum m => simp [isContainer] at ha3c
              | vStr s => simp [isContainer] at ha3c
            rw [hfold, hstep]
            exact ih _ _ _ hrec hlast'
          · -- plain segment
            rename_i hparse
            obtain ⟨cur1, -, h⟩ := Option.bind_eq_some.mp h
            obtain ⟨child', hrec, h⟩ := Option.bind_eq_some.mp h
            -- h : setProp cur1 k child' = some cur'
            have hcur' := setProp_isContainer h
            have hchildc := setKeys_isContainer _ _ _ _ hrec
            have hgp : getProp cur' k = child' := by
              refine getProp_setProp h ?_
              intro es ps hc hk
              exfalso
              rw [hc, hk] at h
              simp only [setProp] at h
              rw [if_true, toArrayLength_container hchildc] at h
              simp at h
            have hstep : getStep cur' k = child' := by
              rw [getStep_of_container hcur', hparse]
              exact hgp
            rw [hfold, hstep]
            exact ih _ _ _ hrec hlast'

example : splitPath "a.b[2].c" = ["a", "b[2]", "c"] := by decide
example : parseSegment "b[2]" = some ("b", "2") := by decide
example : parseSegment "a[0]" = some ("a", "0") := by decide
example : parseSegment "c" = none := by decide
example : jsSet (JVal.vObj []) "a[0]" (JVal.vNum 5)
    = some (JVal.vObj [("a[0]", JVal.vNum 5)]) := rfl
example : jsGet (JVal.vObj [("a[0]", JVal.vNum 5)]) "a[0]" = JVal.vUndefined := rfl

/-- C2, counterexample: the set/get round-trip fails when the *final*
path segment uses bracket notation.  On the wrapped object `{}`,
`set("a[0]", 5)` stores the value under the literal property key
`"a[0]"` (the walk of `set` parses the segment regex only on non-final
segments; the last key is written raw, line 153), while `get("a[0]")`
parses the segment and reads `obj?.["a"]?.["0"]`, i.e. `undefined`. -/
theorem C2_counterexample :
    jsSet (JVal.vObj []) "a[0]" (JVal.vNum 5)
        = some (JVal.vObj [("a[0]", JVal.vNum 5)]) ∧
    jsGet (JVal.vObj [("a[0]", JVal.vNum 5)]) "a[0]" = JVal.vUndefined ∧
    JVal.vUndefined ≠ JVal.vNum 5 :=
  ⟨rfl, rfl, fun h => JVal.noConfusion h⟩

/-- C2, amended: `set(path, v)` followed by `get(path)` on the same
wrapped object returns `v` whenever the final segment of the path is a
plain key (the source applies the bracket regex only to non-final
segments), the write completes without throwing (in strict mode a
bracket-segment parent holding a truthy primitive throws instead of
being replaced by a container), and the final write is not an
array-`length` assignment of a non-number.  Intermediate containers are
created, rather than an error thrown, whenever a parent along the path
is missing, falsy, or — for plain segments — not an object. -/
theorem C2_set_get_roundtrip (root root' : JVal) (path : String) (v : JVal)
    (hset : jsSet root path v = some root')
    (hlast : ∀ lk, (splitPath path).getLast? = some lk →
        parseSegment lk = none ∧ (lk = "length" → ∃ m : Int, v = JVal.vNum m)) :
    jsGet root' path = v :=
  setKeys_roundtrip (splitPath path) root root' v hset hlast

/-- Witness for C2: the concrete run `set("a.b[2].c", 7); get("a.b[2].c")`
on the wrapped empty object returns 7, with the two intermediate
containers (an object at `a`, an array at `a.b`) created by `set`. -/
theorem C2_witness :
    jsGet (JVal.vObj [("a", JVal.vObj [("b",
        JVal.vArr [JVal.vUndefined, JVal.vUndefined, JVal.vObj [("c", JVal.vNum 7)]] [])])])
      "a.b[2].c" = JVal.vNum 7 :=
  C2_set_get_roundtrip (JVal.vObj []) _ "a.b[2].c" (JVal.vNum 7) rfl
    (fun lk hlk => by
      rw [show (splitPath "a.b[2].c").getLast? = some "c" from rfl] at hlk
      injection hlk with h2
      subst h2
      exact ⟨rfl, fun hlen => absurd hlen (by decide)⟩)

/-! ## The proxy set trap and its notifications (claims C1 and C8)

`ReactiveProxy.createProxy` (lines 21-74) installs get/set/deleteProperty
traps.  The observer registry maps a path to the set of callbacks
registered by `observe` (lines 111-122); callbacks are identified by
number here, standing in for function identity in the source's `Set`. -/

/-- The per-path callback registry (`ReactiveProxy.observers`). -/
abbrev Observers := List (String × List Nat)

/-- One delivered observer invocation: which callback was called, for
which path, with which `(value, oldValue)` pair. -/
structure Invocation where
  cb : Nat
  path : String
  value : JVal
  oldValue : JVal

/-- `ReactiveProxy.notify` (lines 186-197): every callback registered
for the path is invoked with `(value, oldValue)`; a throwing callback is
caught and logged (line 193) and does not stop the others, so each
registered callback is attempted exactly once per notification. -/
def notifyInv (obs : Observers) (path : String) (v old : JVal) : List Invocation :=
  ((obs.lookup path).getD []).map (fun c => ⟨c, path, v, old⟩)

/-- The full dot-path of a written property relative to the wrapped
root: `path ? path + "." + prop : prop` (source lines 51, 67). -/
def fullPathOf (path prop : String) : String :=
  if path = "" then prop else path ++ "." ++ prop

/-- The `set` trap of `ReactiveProxy.createProxy` (source lines 38-60)
for a container reached at dot-path `path` inside the wrapped root.
For an array target, lines 42-45 delegate the write to a fresh
`createArrayProxy` proxy (`return arrayProxy[prop] = value`); that proxy
has only a `get` trap (lines 82-105), so the assignment is the default
property set and fires *no* notification.  For any other object the
write goes through (line 48) and the observers of the written full path
(line 52) and then of the parent path (lines 55-57, with the parent
object as both new and old value) are notified. -/
def nestedSetTrap (obs : Observers) (path : String) (obj : JVal)
    (prop : String) (value : JVal) : Option JVal × List Invocation :=
  match obj with
  | .vArr es ps => (setProp (.vArr es ps) prop value, [])
  | _ =>
      (setProp obj prop value,
        notifyInv obs (fullPathOf path prop) value (getProp obj prop) ++
          (if path = "" then [] else notifyInv obs path obj obj))

/-- One element write of a native `push` running against the nested
proxy: `Set(proxy, len + i, arg)` routed through the set trap. -/
def pushStep (obs : Observers) (arrKey : String) (len : Nat)
    (acc : Option JVal × List Invocation) (iv : Nat × JVal) :
    Option JVal × List Invocation :=
  match acc with
  | (some arr, invs) =>
      let r := nestedSetTrap obs arrKey arr (toString (len + iv.1)) iv.2
      (r.1, invs ++ r.2)
  | (none, invs) => (none, invs)

/-- The final step of a native `push` against the nested proxy: the
`length` write `Set(proxy, "length", len + args)` through the set trap,
followed by the write-back of the mutated array into the root (in the
source the array is mutated in place inside the root). -/
def pushFinish (obs : Observers) (root : JVal) (arrKey : String)
    (len nargs : Nat) (acc : Option JVal × List Invocation) :
    Option JVal × List Invocation :=
  match acc.1 with
  | some arr2 =>
      ((nestedSetTrap obs arrKey arr2 "length" (JVal.vNum (len + nargs))).1.bind
          (fun arr3 => setProp root arrKey arr3),
        acc.2 ++ (nestedSetTrap obs arrKey arr2 "length" (JVal.vNum (len + nargs))).2)
  | none => (none, acc.2)

/-- `proxy.<arrKey>.push(...args)` exactly as the source executes it.
The root get trap wraps the array in a plain nested proxy (line 32,
`createProxy`, not `createArrayProxy`); `push` is looked up on that
proxy (a function value, returned unwrapped by the get trap, line 35)
and invoked with the proxy as receiver.  Native `push` reads `length`
once, then performs one element write per argument followed by one
`length` write, each through the nested proxy's `set` trap. -/
def pushViaProxy (obs : Observers) (root : JVal) (arrKey : String)
    (args : List JVal) : Option JVal × List Invocation :=
  match getProp root arrKey with
  | .vArr es ps =>
      pushFinish obs root arrKey es.length args.length
        (args.enum.foldl (pushStep obs arrKey es.length)
          (some (JVal.vArr es ps), []))
  | _ => (none, [])

theorem setProp_arr_shape (es : List JVal) (ps : List (String × JVal))
    (k : String) (v : JVal) :
    setProp (.vArr es ps) k v = none ∨
      ∃ es2 ps2, setProp (.vArr es ps) k v = some (.vArr es2 ps2) := by
  simp only [setProp]
  split
  · rcases h : toArrayLength v with _ | n
    · left; simp [h]
    · right; exact ⟨resizeTo es n, ps, by simp [h]⟩
  · split
    · right; exact ⟨_, _, rfl⟩
    · right; exact ⟨_, _, rfl⟩

theorem pushFold_silent (obs : Observers) (arrKey : String) (len : Nat) :
    ∀ (l : List (Nat × JVal)) (acc : Option JVal × List Invocation),
      (acc.1 = none ∨ ∃ es ps, acc.1 = some (JVal.vArr es ps)) →
      (l.foldl (pushStep obs arrKey len) acc).2 = acc.2 ∧
        ((l.foldl (pushStep obs arrKey len) acc).1 = none ∨
          ∃ es ps, (l.foldl (pushStep obs arrKey len) acc).1
            = some (JVal.vArr es ps)) := by
  intro l
  induction l with
  | nil => intro acc hacc; exact ⟨rfl, hacc⟩
  | cons hd tl ih =>
      intro acc hacc
      obtain ⟨a1, invs⟩ := acc
      rcases hacc with h1 | ⟨es, ps, h1⟩
      all_goals simp only at h1
      · subst h1
        rw [List.foldl_cons]
        exact ih (none, invs) (Or.inl rfl)
      · subst h1
        rw [List.foldl_cons]
        have hstep : pushStep obs arrKey len (some (JVal.vArr es ps), invs) hd
            = (setProp (JVal.vArr es ps) (toString (len + hd.1)) hd.2, invs) := by
          simp [pushStep, nestedSetTrap]
        rw [hstep]
        rcases setProp_arr_shape es ps (toString (len + hd.1)) hd.2 with h | ⟨es2, ps2, h⟩
        · rw [h]; exact ih (none, invs) (Or.inl rfl)
        · rw [h]; exact ih (some (JVal.vArr es2 ps2), invs) (Or.inr ⟨es2, ps2, rfl⟩)

theorem pushFinish_silent (obs : Observers) (root : JVal) (arrKey : String)
    (len nargs : Nat) (acc : Option JVal × List Invocation)
    (h2 : acc.2 = [])
    (h1 : acc.1 = none ∨ ∃ es ps, acc.1 = some (JVal.vArr es ps)) :
    (pushFinish obs root arrKey len nargs acc).2 = [] := by
  obtain ⟨a1, invs⟩ := acc
  simp only at h1 h2
  subst h2
  rcases h1 with h1 | ⟨es, ps, h1⟩
  all_goals subst h1
  · rfl
  · rfl

theorem pushViaProxy_silent (obs : Observers) (root : JVal) (arrKey : String)
    (args : List JVal) : (pushViaProxy obs root arrKey args).2 = [] := by
  cases hr : getProp root arrKey with
  | vArr es ps =>
      obtain ⟨hsil, hshape⟩ := pushFold_silent obs arrKey es.length args.enum
        (some (JVal.vArr es ps), []) (Or.inr ⟨es, ps, rfl⟩)
      simp only [pushViaProxy, hr]
      exact pushFinish_silent obs root arrKey es.length args.length _ hsil hshape
  | vUndefined => simp [pushViaProxy, hr]
  | vNull => simp [pushViaProxy, hr]
  | vBool b => simp [pushViaProxy, hr]
  | vNum n => simp [pushViaProxy, hr]
  | vStr s => simp [pushViaProxy, hr]
  | vObj fs => simp [pushViaProxy, hr]

/-- C1: refuted by the code.  With `{items:[1,2]}` wrapped and observers
registered on "items" (callback 0) and "items[2]" (callback 1),
`proxy.items.push(3)` grows the backing array to `[1,2,3]` but fires no
observer invocation at all, where the claim requires the "items"
callback to receive `([1,2,3],[1,2])` and the "items[2]" callback to
receive `(3, undefined)`.  The notifying interception in
`createArrayProxy` (lines 85-101) is dead code: that proxy is only ever
the target of the plain assignment `arrayProxy[prop] = value` (line 44),
which bypasses its only (get) trap.  The second conjunct generalises:
no push through the proxy ever fires any invocation. -/
theorem C1_push_fires_no_notifications :
    (pushViaProxy [("items", [0]), ("items[2]", [1])]
        (JVal.vObj [("items", JVal.vArr [JVal.vNum 1, JVal.vNum 2] [])])
        "items" [JVal.vNum 3]
      = (some (JVal.vObj
          [("items", JVal.vArr [JVal.vNum 1, JVal.vNum 2, JVal.vNum 3] [])]), []))
    ∧ ∀ (obs : Observers) (root : JVal) (arrKey : String) (args : List JVal),
        (pushViaProxy obs root arrKey args).2 = [] :=
  ⟨rfl, pushViaProxy_silent⟩

theorem fullPathOf_ne (path prop : String) (h : path ≠ "") :
    fullPathOf path prop ≠ path := by
  unfold fullPathOf
  rw [if_neg h]
  intro he
  have hlen := congrArg String.length he
  have hdot : (".").length = 1 := rfl
  simp only [String.length_append, hdot] at hlen
  omega

/-- C8, counterexample: a write to an array element through the proxy
fires no notification at all, even though an observer (callback 7) is
registered on the written path "items.0" — here `items[0] = 1` writes
the value already stored, and the claim requires exactly one invocation.
(The set trap's array branch, lines 42-45, delegates to a trap-free
assignment.) -/
theorem C8_counterexample :
    nestedSetTrap [("items.0", [7])] "items"
        (JVal.vArr [JVal.vNum 1, JVal.vNum 2] []) "0" (JVal.vNum 1)
      = (some (JVal.vArr [JVal.vNum 1, JVal.vNum 2] []), []) := rfl

/-- C8, amended: for every write through the proxy whose target container
is a non-array object, each subscriber of the written path is invoked
exactly once per write, with no value-equality short-circuit — the
statement quantifies over every written value, including a value equal
to the one currently stored.  (Writes to array elements fire no
notification at all; see the counterexample.) -/
theorem C8_write_notifies_once (obs : Observers) (path : String)
    (fs : List (String × JVal)) (prop : String) (value : JVal) :
    ((nestedSetTrap obs path (JVal.vObj fs) prop value).2.filter
        (fun i => i.path == fullPathOf path prop))
      = notifyInv obs (fullPathOf path prop) value (getProp (JVal.vObj fs) prop) := by
  simp only [nestedSetTrap, List.filter_append]
  have h1 : (notifyInv obs (fullPathOf path prop) value
        (getProp (JVal.vObj fs) prop)).filter
        (fun i => i.path == fullPathOf path prop)
      = notifyInv obs (fullPathOf path prop) value (getProp (JVal.vObj fs) prop) :=
    List.filter_eq_self.mpr (by
      intro a ha
      simp only [notifyInv, List.mem_map] at ha
      obtain ⟨c, -, rfl⟩ := ha
      simp)
  by_cases hp : path = ""
  · rw [if_pos hp, h1]
    simp
  · rw [if_neg hp, h1]
    have h2 : (notifyInv obs path (JVal.vObj fs) (JVal.vObj fs)).filter
        (fun i => i.path == fullPathOf path prop) = [] :=
      List.filter_eq_nil_iff.mpr (by
        intro a ha
        simp only [notifyInv, List.mem_map] at ha
        obtain ⟨c, -, rfl⟩ := ha
        simp only [beq_iff_eq]
        exact fun hcontra => Ne.symm (fullPathOf_ne path prop hp) hcontra)
    rw [h2]
    simp

/-! ## The update scheduler (`ReactiveUpdate`, src/src/reactive-dom/update.ts)

Claims C4-C6.  Document nodes are identified by number; selector
matching (`element.matches(selector)`) is an opaque parameter `matche`.
Registered update handlers are represented by an id plus a flag saying
whether invoking them throws; their document effects are recorded as
trace events. -/

/-- A document node, by identity. -/
abbrev Elem := Nat

/-- The `DOMChanges` record (update.ts lines 240-247): every field is
optional, an absent field is a no-op. -/
structure DOMChanges where
  text : Option String := none
  html : Option String := none
  attributes : Option (List (String × Option String)) := none
  styles : Option (List (String × String)) := none
  classes : Option (List (String × Bool)) := none
  dataset : Option (List (String × String)) := none
  deriving DecidableEq

/-- The JS spread merge `{ ...a, ...b }` (update.ts line 65) at the
DOMChanges field level: a field present in `b` (a later
`scheduleUpdate` in the batch) shallow-overwrites the one in `a`. -/
def mergeChanges (a b : DOMChanges) : DOMChanges where
  text := b.text.or a.text
  html := b.html.or a.html
  attributes := b.attributes.or a.attributes
  styles := b.styles.or a.styles
  classes := b.classes.or a.classes
  dataset := b.dataset.or a.dataset

/-- `UpdatePriority` (update.ts line 250). -/
inductive UpdatePriority where
  | critical
  | high
  | normal
  | low
  deriving DecidableEq

/-- The priority ranking of `processUpdates` (line 110):
`{ critical: 0, high: 1, normal: 2, low: 3 }`. -/
def priorityRank : UpdatePriority → Nat
  | .critical => 0
  | .high => 1
  | .normal => 2
  | .low => 3

/-- An `UpdateTask` (update.ts lines 252-257). -/
structure UpdateTask where
  element : Elem
  changes : DOMChanges
  priority : UpdatePriority
  timestamp : Nat
  deriving DecidableEq

/-- A registered update handler: its identity and whether invoking it
throws. -/
structure Handler where
  id : Nat
  throws : Bool
  deriving DecidableEq

/-- State of a `ReactiveUpdate` instance.  `scheduledUpdates` is a JS
`Map` keyed by node: an association list in insertion order where
updating an existing key keeps its position.  `rafPending` models a
non-null `rafId`. -/
structure SchedState where
  updateHandlers : List (String × List Handler)
  scheduledUpdates : List (Elem × UpdateTask)
  rafPending : Bool
  batchMode : Bool
  batchQueue : List UpdateTask

/-- JS `Map.prototype.set`: an existing key keeps its position in
iteration order, a new key is appended. -/
def assocPut {α β : Type} [DecidableEq α] : List (α × β) → α → β → List (α × β)
  | [], k, v => [(k, v)]
  | (k', v') :: rest, k, v =>
      if k' = k then (k', v) :: rest else (k', v') :: assocPut rest k v

/-- `ReactiveUpdate.scheduleUpdate(element, changes, priority)` (lines
26-40); `now` is the `Date.now()` reading.  In batch mode the task is
captured into the batch queue; otherwise it replaces the pending task
for the node and a frame-aligned flush is (re)requested. -/
def scheduleUpdate (s : SchedState) (e : Elem) (c : DOMChanges)
    (p : UpdatePriority) (now : Nat) : SchedState :=
  if s.batchMode then
    { s with batchQueue := s.batchQueue ++ [⟨e, c, p, now⟩] }
  else
    { s with scheduledUpdates := assocPut s.scheduledUpdates e ⟨e, c, p, now⟩
             rafPending := true }

/-- `ReactiveUpdate.startBatch` (lines 45-48). -/
def startBatch (s : SchedState) : SchedState :=
  { s with batchMode := true, batchQueue := [] }

/-- The grouping loop of `endBatch` (lines 57-66): fold the batch queue
into a `Map` from node to shallow-merged changes (`{ ...existing,
...task.changes }`; a node's first task merges into the empty record). -/
def groupBatch (q : List UpdateTask) : List (Elem × DOMChanges) :=
  q.foldl
    (fun g t =>
      assocPut g t.element (mergeChanges ((g.lookup t.element).getD {}) t.changes))
    []

/-- `ReactiveUpdate.endBatch` (lines 53-80): leave batch mode, group the
captured queue per node, enter each merged group as a single pending
task with priority `normal` and a fresh timestamp, clear the queue and
request a flush. -/
def endBatch (s : SchedState) (now : Nat) : SchedState :=
  { s with
      batchMode := false
      batchQueue := []
      scheduledUpdates :=
        (groupBatch s.batchQueue).foldl
          (fun m p => assocPut m p.1 ⟨p.1, p.2, .normal, now⟩)
          s.scheduledUpdates
      rafPending := true }

/-- Events observable during update application. -/
inductive SchedEffect where
  | ranHandler (id : Nat) (e : Elem) (c : DOMChanges)
  | errorLogged (id : Nat) (selector : String)
  | ranDefault (e : Elem) (c : DOMChanges)
  | updatedEvent (e : Elem) (c : DOMChanges)
  deriving DecidableEq

/-- The handler lookup of `applyUpdate` (lines 131-143): the `for..of`
over `updateHandlers.entries()` stops at the **first** selector matching
the node (`break`). -/
def findMatch (matche : Elem → String → Bool)
    (hs : List (String × List Handler)) (e : Elem) :
    Option (String × List Handler) :=
  hs.find? (fun p => matche e p.1)

/-- `ReactiveUpdate.applyUpdate(element, changes)` (lines 127-155).  All
handlers of the first matching selector run in order, each in its own
try/catch: a throwing handler is logged (`console.error`, line 138) and
does not stop the rest.  `handlerApplied` becomes true only when some
handler returned normally; otherwise the default handler runs.  The
`alphabet:updated` event is dispatched at the end in every case. -/
def applyUpdate (matche : Elem → String → Bool)
    (hs : List (String × List Handler)) (e : Elem) (c : DOMChanges) :
    List SchedEffect :=
  match findMatch matche hs e with
  | some (sel, handlers) =>
      handlers.map (fun h =>
          if h.throws then SchedEffect.errorLogged h.id sel
          else SchedEffect.ranHandler h.id e c)
        ++ (if handlers.any (fun h => !h.throws) then []
            else [SchedEffect.ranDefault e c])
        ++ [SchedEffect.updatedEvent e c]
  | none => [SchedEffect.ranDefault e c, SchedEffect.updatedEvent e c]

/-- The sort key of `processUpdates` (lines 108-115): ascending priority
rank, then ascending timestamp.  The comparator-based JS `Array#sort` is
stable, so the flush order is the stable sort under this relation. -/
def taskLe (a b : UpdateTask) : Prop :=
  priorityRank a.priority < priorityRank b.priority ∨
    (priorityRank a.priority = priorityRank b.priority ∧ a.timestamp ≤ b.timestamp)

instance : DecidableRel taskLe := fun a b => by
  unfold taskLe
  exact inferInstance

instance : IsTotal UpdateTask taskLe :=
  ⟨fun a b => by unfold taskLe; omega⟩

instance : IsTrans UpdateTask taskLe :=
  ⟨fun a b c => by unfold taskLe; omega⟩

/-- The order in which a flush applies the pending tasks: the stable
sort of the pending map's values under `taskLe`. -/
def flushOrder (s : SchedState) : List UpdateTask :=
  (s.scheduledUpdates.map Prod.snd).insertionSort taskLe

/-- `ReactiveUpdate.processUpdates` (lines 106-122) followed by the
`rafId = null` reset of the callback that invoked it (line 99): apply
every pending task in `flushOrder`, deleting each task's node from the
pending map after applying it. -/
def processUpdates (matche : Elem → String → Bool) (s : SchedState) :
    SchedState × List SchedEffect :=
  ({ s with
      scheduledUpdates :=
        (flushOrder s).foldl
          (fun m t => m.filter (fun p => decide (p.1 ≠ t.element)))
          s.scheduledUpdates
      rafPending := false },
   (flushOrder s).foldl
     (fun acc t => acc ++ applyUpdate matche s.updateHandlers t.element t.changes)
     [])

theorem assocPut_lookup_self {α β : Type} [DecidableEq α]
    (m : List (α × β)) (k : α) (v : β) :
    (assocPut m k v).lookup k = some v := by
  induction m with
  | nil => simp [assocPut]
  | cons p rest ih =>
      obtain ⟨k', v'⟩ := p
      by_cases h : k' = k
      · subst h
        simp [assocPut]
      · simp only [assocPut, if_neg h, List.lookup_cons]
        have hb : (k == k') = false := by simp [Ne.symm h]
        simp [hb, ih]

theorem assocPut_lookup_ne {α β : Type} [DecidableEq α]
    (m : List (α × β)) (k k2 : α) (v : β) (h : k2 ≠ k) :
    (assocPut m k v).lookup k2 = m.lookup k2 := by
  induction m with
  | nil =>
      simp only [assocPut, List.lookup_cons, List.lookup_nil]
      have hb : (k2 == k) = false := by simp [h]
      simp [hb]
  | cons p rest ih =>
      obtain ⟨k', v'⟩ := p
      by_cases hk : k' = k
      · subst hk
        have hb : (k2 == k') = false := by simp [h]
        simp [assocPut, List.lookup_cons, hb]
      · simp only [assocPut, if_neg hk, List.lookup_cons]
        by_cases hk2 : k2 == k'
        · simp [hk2]
        · simp only [Bool.not_eq_true] at hk2
          simp [hk2, ih]

theorem lookup_none_keys {α β : Type} [DecidableEq α] (m : List (α × β)) (k : α)
    (h : m.lookup k = none) : ∀ p ∈ m, p.1 ≠ k := by
  induction m with
  | nil => simp
  | cons p rest ih =>
      obtain ⟨k', v'⟩ := p
      rw [List.lookup_cons] at h
      by_cases hk : (k == k') = true
      · simp [hk] at h
      · intro q hq
        rcases List.mem_cons.mp hq with hq | hq
        · subst hq
          simp only [Bool.not_eq_true, beq_eq_false_iff_ne] at hk
          exact fun he => hk he.symm
        · exact ih (by simpa [hk] using h) q hq

/-- Right fold of the shallow merges of a batch group. -/
def mergeList (base : DOMChanges) (l : List UpdateTask) : DOMChanges :=
  l.foldl (fun a t => mergeChanges a t.changes) base

theorem groupFold_lookup (e : Elem) :
    ∀ (q : List UpdateTask) (g : List (Elem × DOMChanges)),
      ((q.foldl
          (fun g t =>
            assocPut g t.element (mergeChanges ((g.lookup t.element).getD {}) t.changes))
          g).lookup e)
        = if q.any (fun t => t.element == e)
          then some (mergeList ((g.lookup e).getD {})
              (q.filter (fun t => t.element == e)))
          else g.lookup e := by
  intro q
  induction q with
  | nil => intro g; simp [mergeList]
  | cons t q' ih =>
      intro g
      rw [List.foldl_cons, ih]
      by_cases he : t.element = e
      · have hbe : (t.element == e) = true := by simp [he]
        have hself : ((assocPut g t.element
            (mergeChanges ((g.lookup t.element).getD {}) t.changes)).lookup e)
            = some (mergeChanges ((g.lookup e).getD {}) t.changes) := by
          rw [← he]
          exact assocPut_lookup_self g t.element _
        by_cases hq : q'.any (fun t => t.element == e)
        · simp only [List.any_cons, hbe, Bool.true_or, if_pos, hq, if_true]
          rw [hself]
          simp only [List.filter_cons, hbe, if_true, Option.getD_some, mergeList,
            List.foldl_cons]
        · have hfilt : q'.filter (fun t => t.element == e) = [] :=
            List.filter_eq_nil_iff.mpr (fun a ha hpa =>
              (by simp [List.any_eq_true] at hq; exact hq a ha (by simpa using hpa)))
          simp only [List.any_cons, hbe, Bool.true_or, hq, if_false, if_true]
          rw [hself]
          simp [List.filter_cons, hbe, hfilt, mergeList, he]
      · have hbe : (t.element == e) = false := by simp [he]
        have hne : ((assocPut g t.element
            (mergeChanges ((g.lookup t.element).getD {}) t.changes)).lookup e)
            = g.lookup e :=
          assocPut_lookup_ne g t.element e _ (fun hc => he hc.symm)
        simp [List.any_cons, hbe, List.filter_cons, hne]

theorem assocPut_keys {α β : Type} [DecidableEq α] (m : List (α × β)) (k : α) (v : β) :
    ∀ x, x ∈ (assocPut m k v).map Prod.fst ↔ x = k ∨ x ∈ m.map Prod.fst := by
  induction m with
  | nil => simp [assocPut]
  | cons p rest ih =>
      obtain ⟨k', v'⟩ := p
      intro x
      by_cases h : k' = k
      · subst h
        simp [assocPut]
      · simp only [assocPut, if_neg h, List.map_cons, List.mem_cons, ih]
        tauto

theorem assocPut_keys_nodup {α β : Type} [DecidableEq α]
    (m : List (α × β)) (k : α) (v : β) (h : (m.map Prod.fst).Nodup) :
    ((assocPut m k v).map Prod.fst).Nodup := by
  induction m with
  | nil => simp [assocPut]
  | cons p rest ih =>
      obtain ⟨k', v'⟩ := p
      simp only [List.map_cons, List.nodup_cons] at h
      by_cases hk : k' = k
      · subst hk
        simpa [assocPut, List.nodup_cons] using h
      · simp only [assocPut, if_neg hk, List.map_cons, List.nodup_cons]
        refine ⟨fun hin => ?_, ih h.2⟩
        rcases (assocPut_keys rest k v k').mp hin with hc | hc
        · exact hk hc
        · exact h.1 hc

theorem groupBatch_keys_nodup (q : List UpdateTask) :
    ((groupBatch q).map Prod.fst).Nodup := by
  unfold groupBatch
  generalize hg : ([] : List (Elem × DOMChanges)) = g
  have hgn : (g.map Prod.fst).Nodup := by rw [← hg]; simp
  clear hg
  induction q generalizing g with
  | nil => exact hgn
  | cons t q' ih =>
      rw [List.foldl_cons]
      exact ih _ (assocPut_keys_nodup _ _ _ hgn)

theorem schedFold_lookup_notin (now : Nat) (e : Elem) :
    ∀ (gr : List (Elem × DOMChanges)) (m : List (Elem × UpdateTask)),
      (∀ p ∈ gr, p.1 ≠ e) →
      ((gr.foldl (fun m p => assocPut m p.1 ⟨p.1, p.2, .normal, now⟩) m).lookup e)
        = m.lookup e := by
  intro gr
  induction gr with
  | nil => intro m _; rfl
  | cons p gr' ih =>
      intro m hne
      rw [List.foldl_cons, ih _ (fun q hq => hne q (List.mem_cons_of_mem p hq))]
      exact assocPut_lookup_ne m p.1 e _ (fun hc => hne p (List.mem_cons_self p gr') hc.symm)

theorem schedFold_lookup_in (now : Nat) (e : Elem) (ch : DOMChanges) :
    ∀ (gr : List (Elem × DOMChanges)) (m : List (Elem × UpdateTask)),
      (gr.map Prod.fst).Nodup → gr.lookup e = some ch →
      ((gr.foldl (fun m p => assocPut m p.1 ⟨p.1, p.2, .normal, now⟩) m).lookup e)
        = some ⟨e, ch, .normal, now⟩ := by
  intro gr
  induction gr with
  | nil => intro m _ h; simp at h
  | cons p gr' ih =>
      intro m hnd hl
      obtain ⟨k, v⟩ := p
      simp only [List.map_cons, List.nodup_cons] at hnd
      rw [List.lookup_cons] at hl
      by_cases hk : (e == k) = true
      · have hek : e = k := by simpa using hk
        subst hek
        simp only [hk] at hl
        injection hl with hv
        subst hv
        rw [List.foldl_cons]
        rw [schedFold_lookup_notin now e gr' _
          (fun q hq hqe => hnd.1 (hqe ▸ List.mem_map_of_mem Prod.fst hq))]
        exact assocPut_lookup_self m e _
      · simp only [hk] at hl
        rw [List.foldl_cons]
        exact ih _ hnd.2 hl

/-- C4: while a batch is active every `scheduleUpdate` call is captured
into the batch queue and the pending map is untouched; `endBatch` leaves
batch mode, clears the queue, requests a flush, and turns the captured
entries into exactly one pending task per node, whose changes are the
shallow merge of that node's captured change sets in capture order
(later fields overwriting earlier ones), with priority `normal`; pending
tasks of nodes not captured in the batch are untouched. -/
theorem C4_batch_capture_and_merge (s : SchedState) (hb : s.batchMode = true) :
    (∀ e c p now, scheduleUpdate s e c p now
        = { s with batchQueue := s.batchQueue ++ [⟨e, c, p, now⟩] })
    ∧ (∀ now e, (endBatch s now).batchMode = false
        ∧ (endBatch s now).batchQueue = []
        ∧ (endBatch s now).rafPending = true
        ∧ ((endBatch s now).scheduledUpdates.lookup e
            = if s.batchQueue.any (fun t => t.element == e)
              then some ⟨e,
                  mergeList {} (s.batchQueue.filter (fun t => t.element == e)),
                  .normal, now⟩
              else s.scheduledUpdates.lookup e)) := by
  constructor
  · intro e c p now
    simp [scheduleUpdate, hb]
  · intro now e
    refine ⟨rfl, rfl, rfl, ?_⟩
    have hg := groupFold_lookup e s.batchQueue []
    by_cases hq : s.batchQueue.any (fun t => t.element == e)
    · rw [if_pos hq] at hg
      rw [if_pos hq]
      exact schedFold_lookup_in now e _ (groupBatch s.batchQueue) s.scheduledUpdates
        (groupBatch_keys_nodup s.batchQueue) (by simpa [groupBatch] using hg)
    · rw [if_neg hq] at hg
      rw [if_neg hq]
      exact schedFold_lookup_notin now e (groupBatch s.batchQueue) s.scheduledUpdates
        (lookup_none_keys _ _ (by simpa [groupBatch] using hg))

/-- Witness for C4: the scenario `startBatch(); scheduleUpdate(n,
{text:"a"}); scheduleUpdate(n, {classes:{x:true}}); endBatch()` leaves
exactly one pending task for `n`, holding both the text and the classes
field. -/
theorem C4_witness :
    ((endBatch (scheduleUpdate
        (scheduleUpdate (startBatch ⟨[], [], false, false, []⟩)
          1 { text := some "a" } .normal 10)
        1 { classes := some [("x", true)] } .normal 11) 20).scheduledUpdates.lookup 1)
      = some ⟨1, { text := some "a", classes := some [("x", true)] }, .normal, 20⟩ := by
  have h := (C4_batch_capture_and_merge
    (scheduleUpdate (scheduleUpdate (startBatch ⟨[], [], false, false, []⟩)
        1 { text := some "a" } .normal 10)
      1 { classes := some [("x", true)] } .normal 11) rfl).2 20 1
  exact h.2.2.2.trans (by rfl)

theorem foldl_filter_tasks (ts : List UpdateTask) :
    ∀ (m : List (Elem × UpdateTask)),
      ts.foldl (fun m t => m.filter (fun p => decide (p.1 ≠ t.element))) m
        = m.filter (fun p => ts.all (fun t => decide (p.1 ≠ t.element))) := by
  induction ts with
  | nil => intro m; simp
  | cons t ts' ih =>
      intro m
      rw [List.foldl_cons, ih, List.filter_filter]
      congr 1
      funext p
      simp [List.all_cons, Bool.and_comm]

/-- C5: a flush applies the pending tasks in an order that is a
permutation of the pending map's values, sorted by (priority rank,
timestamp) — stably, so tasks with equal keys keep their map order —
and afterwards the pending map is empty and the frame callback slot is
free; the flush's effect trace is the concatenation of the per-task
applications in exactly that order.  The hypothesis states the Map
invariant that each pending entry is keyed by its task's node. -/
theorem C5_flush_order_and_clear (matche : Elem → String → Bool) (s : SchedState)
    (hwf : ∀ p ∈ s.scheduledUpdates, p.2.element = p.1) :
    (flushOrder s).Perm (s.scheduledUpdates.map Prod.snd)
    ∧ List.Sorted taskLe (flushOrder s)
    ∧ (∀ a b : UpdateTask, taskLe a b →
        [a, b].Sublist (s.scheduledUpdates.map Prod.snd) →
        [a, b].Sublist (flushOrder s))
    ∧ (processUpdates matche s).1.scheduledUpdates = []
    ∧ (processUpdates matche s).1.rafPending = false
    ∧ (processUpdates matche s).2
        = (flushOrder s).foldl
            (fun acc t => acc ++ applyUpdate matche s.updateHandlers t.element t.changes)
            [] := by
  refine ⟨List.perm_insertionSort taskLe _, List.sorted_insertionSort taskLe _,
    fun a b hab hsub => List.pair_sublist_insertionSort hab hsub, ?_, rfl, rfl⟩
  show (flushOrder s).foldl
      (fun m t => m.filter (fun p => decide (p.1 ≠ t.element))) s.scheduledUpdates = []
  rw [foldl_filter_tasks]
  apply List.filter_eq_nil_iff.mpr
  intro p hp
  have hmem : p.2 ∈ flushOrder s :=
    (List.perm_insertionSort taskLe _).mem_iff.mpr (List.mem_map_of_mem Prod.snd hp)
  intro hall
  rw [List.all_eq_true] at hall
  have := hall p.2 hmem
  simp [hwf p hp] at this

/-- Witness for C5: with a normal-priority task scheduled at timestamp
100 and a critical one scheduled afterwards (timestamp 101) for a
different node, the flush applies the critical task first and empties
the pending map. -/
theorem C5_witness :
    (processUpdates (fun _ _ => false)
        ⟨[], [(1, ⟨1, { text := some "n" }, .normal, 100⟩),
              (2, ⟨2, { text := some "c" }, .critical, 101⟩)], true, false, []⟩
      ).1.scheduledUpdates = []
    ∧ flushOrder
        ⟨[], [(1, ⟨1, { text := some "n" }, .normal, 100⟩),
              (2, ⟨2, { text := some "c" }, .critical, 101⟩)], true, false, []⟩
      = [⟨2, { text := some "c" }, .critical, 101⟩,
         ⟨1, { text := some "n" }, .normal, 100⟩] := by
  have h := C5_flush_order_and_clear (fun _ _ => false)
    ⟨[], [(1, ⟨1, { text := some "n" }, .normal, 100⟩),
          (2, ⟨2, { text := some "c" }, .critical, 101⟩)], true, false, []⟩
    (by decide)
  exact ⟨h.2.2.2.1, by decide⟩

theorem updated_mem_applyUpdate (matche : Elem → String → Bool)
    (hs : List (String × List Handler)) (e : Elem) (c : DOMChanges) :
    SchedEffect.updatedEvent e c ∈ applyUpdate matche hs e c := by
  unfold applyUpdate
  cases findMatch matche hs e with
  | none => simp
  | some p => obtain ⟨sel, handlers⟩ := p; simp

theorem mem_foldl_append_init {α β : Type} (f : α → List β) :
    ∀ (ts : List α) (init : List β) (x : β), x ∈ init →
      x ∈ ts.foldl (fun acc t => acc ++ f t) init := by
  intro ts
  induction ts with
  | nil => intro init x hx; simpa using hx
  | cons hd tl ih =>
      intro init x hx
      rw [List.foldl_cons]
      exact ih _ x (List.mem_append_left _ hx)

theorem mem_foldl_append {α β : Type} (f : α → List β) (x : β) :
    ∀ (ts : List α) (init : List β) (t : α), t ∈ ts → x ∈ f t →
      x ∈ ts.foldl (fun acc t => acc ++ f t) init := by
  intro ts
  induction ts with
  | nil => intro init t h; simp at h
  | cons hd tl ih =>
      intro init t hmem hx
      rw [List.foldl_cons]
      rcases List.mem_cons.mp hmem with hmem | hmem
      · subst hmem
        exact mem_foldl_append_init f tl _ x (List.mem_append_right _ hx)
      · exact ih _ t hmem hx

/-- C6: a throwing handler is caught and logged (its `console.error`
effect appears in the trace), every handler of the matched selector
group still produces its own outcome — invocation or logged error — in
registration order regardless of which handlers throw, the
`alphabet:updated` dispatch still happens, and every task of the flush
still gets applied (its updated event appears in the flush trace). -/
theorem C6_handler_exception_isolated (matche : Elem → String → Bool)
    (s : SchedState) (e : Elem) (c : DOMChanges)
    (sel : String) (handlers : List Handler) (h : Handler)
    (hfind : findMatch matche s.updateHandlers e = some (sel, handlers))
    (hmem : h ∈ handlers) (hthrows : h.throws = true) :
    SchedEffect.errorLogged h.id sel ∈ applyUpdate matche s.updateHandlers e c
    ∧ (∀ h2 ∈ handlers,
        (if h2.throws then SchedEffect.errorLogged h2.id sel
         else SchedEffect.ranHandler h2.id e c)
          ∈ applyUpdate matche s.updateHandlers e c)
    ∧ SchedEffect.updatedEvent e c ∈ applyUpdate matche s.updateHandlers e c
    ∧ (∀ t ∈ flushOrder s,
        SchedEffect.updatedEvent t.element t.changes ∈ (processUpdates matche s).2) := by
  have hout : ∀ h2 ∈ handlers,
      (if h2.throws then SchedEffect.errorLogged h2.id sel
       else SchedEffect.ranHandler h2.id e c)
        ∈ applyUpdate matche s.updateHandlers e c := by
    intro h2 hm2
    unfold applyUpdate
    rw [hfind]
    exact List.mem_append_left _ (List.mem_append_left _
      (List.mem_map_of_mem _ hm2))
  refine ⟨?_, hout, updated_mem_applyUpdate matche s.updateHandlers e c, ?_⟩
  · have := hout h hmem
    rwa [if_pos hthrows] at this
  · intro t ht
    exact mem_foldl_append _ _ (flushOrder s) [] t ht
      (updated_mem_applyUpdate matche s.updateHandlers t.element t.changes)

/-- Witness for C6: with handlers 0 (throwing) and 1 (normal) both
registered for selector "div" matching node 5, applying an update logs
handler 0's error and still runs handler 1 and dispatches the updated
event. -/
theorem C6_witness :
    SchedEffect.errorLogged 0 "div"
        ∈ applyUpdate (fun _ _ => true) [("div", [⟨0, true⟩, ⟨1, false⟩])] 5 {}
    ∧ SchedEffect.ranHandler 1 5 {}
        ∈ applyUpdate (fun _ _ => true) [("div", [⟨0, true⟩, ⟨1, false⟩])] 5 {}
    ∧ SchedEffect.updatedEvent 5 {}
        ∈ applyUpdate (fun _ _ => true) [("div", [⟨0, true⟩, ⟨1, false⟩])] 5 {} := by
  have h := C6_handler_exception_isolated (fun _ _ => true)
    ⟨[("div", [⟨0, true⟩, ⟨1, false⟩])], [], false, false, []⟩ 5 {}
    "div" [⟨0, true⟩, ⟨1, false⟩] ⟨0, true⟩ rfl (by decide) rfl
  refine ⟨h.1, ?_, h.2.2.1⟩
  have h2 := h.2.1 ⟨1, false⟩ (by decide)
  simpa using h2

/-! ## The document observation layer (`ReactiveDOM`, src/src/reactive-dom/dom.ts)

Claims C3, C7 and C10.  The document is a forest of nodes given by
child-to-parent edges; external raw mutations change it and are routed
to the `MutationObserver` handles the layer has attached, exactly as
dom.ts's callbacks react to them.  Dispatched semantic events are
recorded in an append-only trace.  A `SchedState` (the update scheduler
of update.ts) is threaded through untouched: dom.ts neither imports nor
calls `ReactiveUpdate`, and claim C3 is precisely that frame property. -/

/-- A document node, by identity. -/
abbrev Node := Nat

/-- `ReactiveOptions` (dom.ts lines 302-306). -/
structure ReactiveOptions where
  observeAttributes : Option (List String) := none
  observeSubtree : Bool := false
  deriving DecidableEq

/-- One observation handle (an attached `MutationObserver`), tagged by
concern.  `newElemH` keeps the options captured by the
`observeNewElements` closure (line 139). -/
inductive Handle where
  | attrH (filter : Option (List String))
  | contentH
  | childH (subtree : Bool)
  | newElemH (opts : ReactiveOptions)
  deriving DecidableEq

/-- The document: `(child, parent)` edges; a node has at most one
parent.  Nodes absent from the child column are roots. -/
abbrev Doc := List (Node × Node)

/-- The state a `ReactiveDOM` instance owns (lines 7-10): the tracking
set, the per-node observer handles, the microtask intent queue, and the
drain flag. -/
structure RDState where
  reactiveElements : List Node
  observersMap : List (Node × List Handle)
  updateQueue : List Node
  isUpdating : Bool

/-- A dispatched semantic event (name and dispatch target; `detail` is
irrelevant to the claims under verification). -/
structure DomEvent where
  name : String
  target : Node
  deriving DecidableEq

/-- The world the layer runs in: document, layer state, the (never
touched) update scheduler, and the event trace. -/
structure World where
  doc : Doc
  rd : RDState
  sched : SchedState
  events : List DomEvent

/-- JS `Set.prototype.add`. -/
def setAdd (l : List Node) (n : Node) : List Node :=
  if n ∈ l then l else l ++ [n]

/-- `ReactiveDOM.addObserver` (lines 252-257): append the handle to the
node's list, creating the entry if needed. -/
def addObserverL (m : List (Node × List Handle)) (n : Node) (h : Handle) :
    List (Node × List Handle) :=
  match m.lookup n with
  | some hs => assocPut m n (hs ++ [h])
  | none => m ++ [(n, [h])]

/-- `ReactiveDOM.makeReactive` (lines 15-32): a no-op when the element
is already tracked; otherwise track it and attach one handle per
concern — attributes, content, child list.  (The `console.log` on line
31 is not a document effect and is not modelled.) -/
def makeReactive (w : World) (n : Node) (opts : ReactiveOptions) : World :=
  if n ∈ w.rd.reactiveElements then w
  else
    { w with rd := { w.rd with
        reactiveElements := w.rd.reactiveElements ++ [n]
        observersMap :=
          addObserverL (addObserverL (addObserverL w.rd.observersMap
            n (.attrH opts.observeAttributes)) n .contentH)
            n (.childH opts.observeSubtree) } }

/-- Parent of a node, if any. -/
def parentOf (d : Doc) (n : Node) : Option Node := d.lookup n

/-- Strict ancestors of `n`, by walking parent edges with fuel `d.length`
(enough for any simple chain in a forest). -/
def ancestorsAux (d : Doc) : Nat → Node → List Node
  | 0, _ => []
  | fuel + 1, n =>
      match parentOf d n with
      | none => []
      | some p => p :: ancestorsAux d fuel p

/-- All strict ancestors of a node. -/
def ancestors (d : Doc) (n : Node) : List Node := ancestorsAux d d.length n

/-- All current descendants of `r` (`root.querySelectorAll('*')`,
line 42): the nodes whose parent chain passes through `r`. -/
def descendants (d : Doc) (r : Node) : List Node :=
  (d.map Prod.fst).filter (fun n => decide (r ∈ ancestors d n))

/-- `ReactiveDOM.makeReactiveSubtree` (lines 37-49): make the root and
every current descendant reactive, then attach the fourth observation
concern (future added nodes) on the root. -/
def makeReactiveSubtree (w : World) (root : Node) (opts : ReactiveOptions) : World :=
  let w1 := makeReactive w root opts
  let w2 := (descendants w.doc root).foldl (fun w n => makeReactive w n opts) w1
  { w2 with rd := { w2.rd with
      observersMap := addObserverL w2.rd.observersMap root (.newElemH opts) } }

/-- `ReactiveDOM.queueUpdate` (lines 213-224): add the node to the
intent queue and mark a microtask drain pending. -/
def queueUpdate (rd : RDState) (n : Node) : RDState :=
  { rd with updateQueue := setAdd rd.updateQueue n, isUpdating := true }

/-- `ReactiveDOM.handleAttributeChange` (lines 157-166). -/
def handleAttributeChange (w : World) (owner : Node) : World :=
  { w with rd := queueUpdate w.rd owner
           events := w.events ++ [⟨"alphabet:attribute-change", owner⟩] }

/-- `ReactiveDOM.handleContentChange` (lines 171-178). -/
def handleContentChange (w : World) (owner : Node) : World :=
  { w with rd := queueUpdate w.rd owner
           events := w.events ++ [⟨"alphabet:content-change", owner⟩] }

/-- `ReactiveDOM.handleElementAdded` (lines 183-193): make the added
node reactive (default options), queue the observed element, dispatch
`alphabet:child-added` on the observed element. -/
def handleElementAdded (w : World) (owner added : Node) : World :=
  let w1 := makeReactive w added {}
  { w1 with rd := queueUpdate w1.rd owner
            events := w1.events ++ [⟨"alphabet:child-added", owner⟩] }

/-- `ReactiveDOM.cleanupElement` (lines 262-271): disconnect and drop
every observation handle of the node, remove it from the tracking set
and from the pending intent queue. -/
def cleanupElement (rd : RDState) (n : Node) : RDState :=
  { rd with
      observersMap := rd.observersMap.filter (fun p => decide (p.1 ≠ n))
      reactiveElements := rd.reactiveElements.filter (fun m => decide (m ≠ n))
      updateQueue := rd.updateQueue.filter (fun m => decide (m ≠ n)) }

/-- `ReactiveDOM.handleElementRemoved` (lines 198-208): clean up the
removed node, queue the observed element, dispatch
`alphabet:child-removed` on the observed element. -/
def handleElementRemoved (w : World) (owner removed : Node) : World :=
  { w with rd := queueUpdate (cleanupElement w.rd removed) owner
           events := w.events ++ [⟨"alphabet:child-removed", owner⟩] }

/-- `ReactiveDOM.processUpdateQueue` + `performUpdate` (lines 229-247):
dispatch one generic `alphabet:update` event per queued node, then clear
the queue and the drain flag.  This microtask drain is the layer's only
internally-initiated behaviour. -/
def processUpdateQueue (w : World) : World :=
  { w with rd := { w.rd with updateQueue := [], isUpdating := false }
           events := w.events ++ w.rd.updateQueue.map
             (fun n => ⟨"alphabet:update", n⟩) }

/-- An externally-caused raw document mutation.  `setText host` is a
character-data change inside the element `host`; `insert p c` appends
the detached node `c` under `p`; `remove p c` detaches `c` from `p`. -/
inductive Mutation where
  | setAttr (target : Node) (name : String)
  | setText (host : Node)
  | insert (p c : Node)
  | remove (p c : Node)
  deriving DecidableEq

/-- The raw document change a mutation performs. -/
def applyMutDoc (d : Doc) : Mutation → Doc
  | .setAttr _ _ => d
  | .setText _ => d
  | .insert p c => d ++ [(c, p)]
  | .remove p c => d.filter (fun e => decide (e ≠ (c, p)))

/-- Is a mutation effective (does it change anything / can it occur)?
Inserting an already-attached node or removing a non-edge is a no-op
that produces no observer records. -/
def mutEffective (d : Doc) : Mutation → Bool
  | .insert _ c => (d.lookup c).isNone
  | .remove p c => decide ((c, p) ∈ d)
  | _ => true

/-- Does the handle owned by `owner` observe the mutation?  This is the
`MutationObserver` routing for the configurations dom.ts uses:
attribute observation on the element itself with an optional filter
(lines 67-70); character data with `subtree: true` (lines 88-94); child
lists on the element itself plus, with `observeSubtree`, its subtree
(lines 122-125); and the always-subtree new-element watcher (lines
146-149). -/
def observes (d : Doc) (owner : Node) (h : Handle) : Mutation → Bool
  | .setAttr t name =>
      match h with
      | .attrH flt =>
          owner == t && (match flt with
            | none => true
            | some fs => fs.contains name)
      | _ => false
  | .setText host =>
      match h with
      | .contentH => owner == host || (ancestors d host).contains owner
      | _ => false
  | .insert p _ =>
      match h with
      | .childH subtree => owner == p || (subtree && (ancestors d p).contains owner)
      | .newElemH _ => owner == p || (ancestors d p).contains owner
      | _ => false
  | .remove p _ =>
      match h with
      | .childH subtree => owner == p || (subtree && (ancestors d p).contains owner)
      | _ => false

/-- The observer reactions of dom.ts's callbacks, per (owner, handle):
attribute and content changes queue-and-dispatch; a child-list addition
runs `handleElementAdded`; the new-element watcher runs
`makeReactiveSubtree` on the added node (line 139); a child-list removal
runs `handleElementRemoved` (which cleans the removed node up).  The
`removedNodes` loop of the new-element watcher does not exist (line 137
handles `addedNodes` only). -/
def applyReaction (mu : Mutation) (w : World) (oh : Node × Handle) : World :=
  match mu, oh.2 with
  | .setAttr _ _, .attrH _ => handleAttributeChange w oh.1
  | .setText _, .contentH => handleContentChange w oh.1
  | .insert _ c, .childH _ => handleElementAdded w oh.1 c
  | .insert _ c, .newElemH opts => makeReactiveSubtree w c opts
  | .remove _ c, .childH _ => handleElementRemoved w oh.1 c
  | _, _ => w

/-- The matching (owner, handle) pairs for a mutation, snapshotted from
the current observer registry (observer callbacks for one mutation are
determined at mutation time). -/
def matchingPairs (d : Doc) (m : List (Node × List Handle)) (mu : Mutation) :
    List (Node × Handle) :=
  m.foldl
    (fun acc p =>
      acc ++ (p.2.filter (fun h => observes d p.1 h mu)).map (fun h => (p.1, h)))
    []

/-- One externally-caused mutation: apply the raw document change, then
run every matching observer's reaction. -/
def mutStep (w : World) (mu : Mutation) : World :=
  if mutEffective w.doc mu then
    let d' := applyMutDoc w.doc mu
    (matchingPairs d' w.rd.observersMap mu).foldl (applyReaction mu)
      { w with doc := d' }
  else w

/-- A step of the world: an external mutation, or the microtask drain of
the intent queue. -/
inductive DomStep where
  | mu (m : Mutation)
  | drain
  deriving DecidableEq

/-- Run one step. -/
def domStep (w : World) : DomStep → World
  | .mu m => mutStep w m
  | .drain => processUpdateQueue w

/-- Run a sequence of steps. -/
def domRun (w : World) : List DomStep → World
  | [] => w
  | s :: rest => domRun (domStep w s) rest

theorem makeReactive_frame (w : World) (n : Node) (o : ReactiveOptions) :
    (makeReactive w n o).doc = w.doc ∧ (makeReactive w n o).sched = w.sched
      ∧ (makeReactive w n o).events = w.events := by
  unfold makeReactive
  split <;> exact ⟨rfl, rfl, rfl⟩

theorem foldl_makeReactive_frame (o : ReactiveOptions) :
    ∀ (l : List Node) (w : World),
      (l.foldl (fun w n => makeReactive w n o) w).doc = w.doc
      ∧ (l.foldl (fun w n => makeReactive w n o) w).sched = w.sched
      ∧ (l.foldl (fun w n => makeReactive w n o) w).events = w.events := by
  intro l
  induction l with
  | nil => intro w; exact ⟨rfl, rfl, rfl⟩
  | cons hd tl ih =>
      intro w
      rw [List.foldl_cons]
      obtain ⟨h1, h2, h3⟩ := ih (makeReactive w hd o)
      obtain ⟨g1, g2, g3⟩ := makeReactive_frame w hd o
      exact ⟨h1.trans g1, h2.trans g2, h3.trans g3⟩

theorem makeReactiveSubtree_frame (w : World) (r : Node) (o : ReactiveOptions) :
    (makeReactiveSubtree w r o).doc = w.doc
    ∧ (makeReactiveSubtree w r o).sched = w.sched
    ∧ (makeReactiveSubtree w r o).events = w.events := by
  unfold makeReactiveSubtree
  obtain ⟨h1, h2, h3⟩ := foldl_makeReactive_frame o (descendants w.doc r) (makeReactive w r o)
  obtain ⟨g1, g2, g3⟩ := makeReactive_frame w r o
  exact ⟨h1.trans g1, h2.trans g2, h3.trans g3⟩

theorem applyReaction_frame (mu : Mutation) (w : World) (oh : Node × Handle) :
    (applyReaction mu w oh).doc = w.doc ∧ (applyReaction mu w oh).sched = w.sched := by
  obtain ⟨owner, h⟩ := oh
  cases mu with
  | setAttr t name =>
      cases h <;>
        simp [applyReaction, handleAttributeChange, queueUpdate]
  | setText host =>
      cases h <;>
        simp [applyReaction, handleContentChange, queueUpdate]
  | insert p c =>
      cases h with
      | childH st =>
          obtain ⟨h1, h2, -⟩ := makeReactive_frame w c {}
          simp [applyReaction, handleElementAdded, queueUpdate, h1, h2]
      | newElemH o =>
          obtain ⟨h1, h2, -⟩ := makeReactiveSubtree_frame w c o
          exact ⟨h1, h2⟩
      | attrH f => exact ⟨rfl, rfl⟩
      | contentH => exact ⟨rfl, rfl⟩
  | remove p c =>
      cases h <;>
        simp [applyReaction, handleElementRemoved, queueUpdate, cleanupElement]

theorem foldl_applyReaction_frame (mu : Mutation) :
    ∀ (pairs : List (Node × Handle)) (w : World),
      (pairs.foldl (applyReaction mu) w).doc = w.doc
      ∧ (pairs.foldl (applyReaction mu) w).sched = w.sched := by
  intro pairs
  induction pairs with
  | nil => intro w; exact ⟨rfl, rfl⟩
  | cons hd tl ih =>
      intro w
      rw [List.foldl_cons]
      obtain ⟨h1, h2⟩ := ih (applyReaction mu w hd)
      obtain ⟨g1, g2⟩ := applyReaction_frame mu w hd
      exact ⟨h1.trans g1, h2.trans g2⟩

/-- C3: the observation layer never mutates the document and never calls
into the update scheduler.  For an external mutation step, the only
document change is the raw external mutation itself — the layer's
reactions (queueing intent, dispatching semantic events, re/un-tracking
nodes) leave the document untouched — and the scheduler state is
untouched.  The microtask drain dispatches exactly one generic
`alphabet:update` event per enqueued node, empties the queue, and
changes neither the document nor the scheduler. -/
theorem C3_observation_layer_is_read_only :
    (∀ (w : World) (m : Mutation),
        (mutStep w m).doc
            = (if mutEffective w.doc m then applyMutDoc w.doc m else w.doc)
        ∧ (mutStep w m).sched = w.sched)
    ∧ (∀ w : World,
        (processUpdateQueue w).doc = w.doc
        ∧ (processUpdateQueue w).sched = w.sched
        ∧ (processUpdateQueue w).events
            = w.events ++ w.rd.updateQueue.map (fun n => ⟨"alphabet:update", n⟩)
        ∧ (processUpdateQueue w).rd.updateQueue = []) := by
  constructor
  · intro w m
    unfold mutStep
    by_cases he : mutEffective w.doc m
    · rw [if_pos he, if_pos he]
      obtain ⟨h1, h2⟩ := foldl_applyReaction_frame m
        (matchingPairs (applyMutDoc w.doc m) w.rd.observersMap m)
        { w with doc := applyMutDoc w.doc m }
      exact ⟨h1, h2⟩
    · rw [if_neg he, if_neg he]
      exact ⟨rfl, rfl⟩
  · intro w
    exact ⟨rfl, rfl, rfl, rfl⟩

/-- The three per-element observation concerns of `makeReactive`. -/
def isAttrH : Handle → Bool
  | .attrH _ => true
  | _ => false

/-- Content-concern recogniser. -/
def isContentH : Handle → Bool
  | .contentH => true
  | _ => false

/-- Child-list-concern recogniser. -/
def isChildH : Handle → Bool
  | .childH _ => true
  | _ => false

/-- The observation handles currently held for a node. -/
def handlesOf (rd : RDState) (n : Node) : List Handle :=
  (rd.observersMap.lookup n).getD []

/-- The per-concern uniqueness invariant: every tracked element holds
exactly one handle of each of the three `makeReactive` concerns, and an
untracked element holds none of them. -/
def GoodRD (rd : RDState) : Prop :=
  ∀ n : Node,
    (n ∈ rd.reactiveElements →
      (handlesOf rd n).countP isAttrH = 1
      ∧ (handlesOf rd n).countP isContentH = 1
      ∧ (handlesOf rd n).countP isChildH = 1)
    ∧ (n ∉ rd.reactiveElements →
      (handlesOf rd n).countP isAttrH = 0
      ∧ (handlesOf rd n).countP isContentH = 0
      ∧ (handlesOf rd n).countP isChildH = 0)

/-- A registration call of the public API. -/
inductive RegCall where
  | single (n : Node) (opts : ReactiveOptions)
  | subtree (root : Node) (opts : ReactiveOptions)

/-- Run a sequence of `makeReactive`/`makeReactiveSubtree` calls. -/
def runRegCalls (w : World) : List RegCall → World
  | [] => w
  | .single n o :: rest => runRegCalls (makeReactive w n o) rest
  | .subtree r o :: rest => runRegCalls (makeReactiveSubtree w r o) rest

theorem lookup_append_single {α β : Type} [DecidableEq α]
    (m : List (α × β)) (n k : α) (v : β) :
    (m ++ [(n, v)]).lookup k
      = match m.lookup k with
        | some w => some w
        | none => if k = n then some v else none := by
  induction m with
  | nil =>
      simp only [List.nil_append, List.lookup_cons, List.lookup_nil]
      by_cases h : k = n
      · subst h; simp
      · have hb : (k == n) = false := by simp [h]
        simp [hb, h]
  | cons p rest ih =>
      obtain ⟨k', v'⟩ := p
      simp only [List.cons_append, List.lookup_cons]
      by_cases h : (k == k') = true
      · simp [h]
      · simp only [Bool.not_eq_true] at h
        simp [h, ih]

theorem handlesOf_addObserverL_self (rd : List (Node × List Handle))
    (n : Node) (h : Handle) :
    ((addObserverL rd n h).lookup n).getD []
      = ((rd.lookup n).getD []) ++ [h] := by
  unfold addObserverL
  cases hl : rd.lookup n with
  | some hs => rw [assocPut_lookup_self]; simp [hl]
  | none =>
      rw [lookup_append_single, hl]
      simp

theorem handlesOf_addObserverL_ne (rd : List (Node × List Handle))
    (n k : Node) (h : Handle) (hk : k ≠ n) :
    (addObserverL rd n h).lookup k = rd.lookup k := by
  unfold addObserverL
  cases hl : rd.lookup n with
  | some hs => exact assocPut_lookup_ne rd n k _ hk
  | none =>
      rw [lookup_append_single]
      cases hlk : rd.lookup k with
      | some hs => rfl
      | none => simp [hk]

theorem countP_append_single (hs : List Handle) (h : Handle) (p : Handle → Bool) :
    (hs ++ [h]).countP p = hs.countP p + (if p h then 1 else 0) := by
  rw [List.countP_append, List.countP_cons]
  simp [List.countP_nil]

theorem makeReactive_goodRD (w : World) (n : Node) (o : ReactiveOptions)
    (hg : GoodRD w.rd) : GoodRD (makeReactive w n o).rd := by
  unfold makeReactive
  by_cases hm : n ∈ w.rd.reactiveElements
  · rw [if_pos hm]; exact hg
  · rw [if_neg hm]
    intro x
    by_cases hx : x = n
    · subst hx
      constructor
      · intro _
        have h0 := (hg x).2 hm
        simp only [handlesOf] at h0 ⊢
        rw [handlesOf_addObserverL_self, handlesOf_addObserverL_self,
          handlesOf_addObserverL_self]
        rw [countP_append_single, countP_append_single, countP_append_single,
          countP_append_single, countP_append_single, countP_append_single,
          countP_append_single, countP_append_single, countP_append_single]
        simp [h0.1, h0.2.1, h0.2.2, isAttrH, isContentH, isChildH]
      · intro hco
        exact absurd (List.mem_append_right _ (List.mem_singleton.mpr rfl)) hco
    · have hlk' : (addObserverL (addObserverL (addObserverL w.rd.observersMap
          n (Handle.attrH o.observeAttributes)) n Handle.contentH)
          n (Handle.childH o.observeSubtree)).lookup x = w.rd.observersMap.lookup x := by
        rw [handlesOf_addObserverL_ne _ _ _ _ hx, handlesOf_addObserverL_ne _ _ _ _ hx,
          handlesOf_addObserverL_ne _ _ _ _ hx]
      have hmem : (x ∈ w.rd.reactiveElements ++ [n]) ↔ x ∈ w.rd.reactiveElements := by
        simp [hx]
      constructor
      · intro hxm
        have := (hg x).1 (hmem.mp hxm)
        simpa [handlesOf, hlk'] using this
      · intro hxm
        have := (hg x).2 (fun hc => hxm (hmem.mpr hc))
        simpa [handlesOf, hlk'] using this

theorem makeReactiveSubtree_goodRD (w : World) (r : Node) (o : ReactiveOptions)
    (hg : GoodRD w.rd) : GoodRD (makeReactiveSubtree w r o).rd := by
  unfold makeReactiveSubtree
  have hg1 : GoodRD (makeReactive w r o).rd := makeReactive_goodRD w r o hg
  have hg2 : ∀ (l : List Node) (w1 : World), GoodRD w1.rd →
      GoodRD ((l.foldl (fun w n => makeReactive w n o) w1)).rd := by
    intro l
    induction l with
    | nil => intro w1 h; exact h
    | cons hd tl ih =>
        intro w1 h
        rw [List.foldl_cons]
        exact ih _ (makeReactive_goodRD w1 hd o h)
  intro x
  have hgood := hg2 (descendants w.doc r) (makeReactive w r o) hg1 x
  by_cases hx : x = r
  · subst hx
    simp only [handlesOf] at hgood ⊢
    rw [handlesOf_addObserverL_self]
    rw [countP_append_single, countP_append_single, countP_append_single]
    simpa [isAttrH, isContentH, isChildH] using hgood
  · simp only [handlesOf] at hgood ⊢
    rw [handlesOf_addObserverL_ne _ _ _ _ hx]
    exact hgood

/-- C10: `makeReactive` is idempotent — a second call on an already
reactive element returns with the state completely unchanged, attaching
nothing — and along any sequence of `makeReactive` /
`makeReactiveSubtree` calls, every reactive element holds exactly one
observation handle per concern (attributes, content, child list), while
untracked elements hold none. -/
theorem C10_makeReactive_idempotent :
    (∀ (w : World) (n : Node) (o : ReactiveOptions),
        n ∈ w.rd.reactiveElements → makeReactive w n o = w)
    ∧ (∀ (w : World) (calls : List RegCall),
        GoodRD w.rd → GoodRD (runRegCalls w calls).rd) := by
  constructor
  · intro w n o hm
    unfold makeReactive
    rw [if_pos hm]
  · intro w calls
    induction calls generalizing w with
    | nil => exact fun h => h
    | cons c rest ih =>
        intro hg
        cases c with
        | single n o => exact ih _ (makeReactive_goodRD w n o hg)
        | subtree r o => exact ih _ (makeReactiveSubtree_goodRD w r o hg)

/-- Witness for C10: on a world where node 5 has just been made
reactive, a second `makeReactive` is the identity, and the uniqueness
invariant holds after the call sequence. -/
theorem C10_witness :
    makeReactive (makeReactive ⟨[], ⟨[], [], [], false⟩, ⟨[], [], false, false, []⟩, []⟩
        5 {}) 5 {}
      = makeReactive ⟨[], ⟨[], [], [], false⟩, ⟨[], [], false, false, []⟩, []⟩ 5 {}
    ∧ GoodRD (runRegCalls ⟨[], ⟨[], [], [], false⟩, ⟨[], [], false, false, []⟩, []⟩
        [RegCall.single 5 {}]).rd := by
  constructor
  · exact C10_makeReactive_idempotent.1 _ 5 {} (by decide)
  · exact C10_makeReactive_idempotent.2 _ [RegCall.single 5 {}]
      (fun n => ⟨fun h => absurd h (List.not_mem_nil n), fun _ => ⟨rfl, rfl, rfl⟩⟩)

/-- A node the observation layer is entirely unaware of: it holds no
observation handles and is not in the pending intent queue.  This is
the state `cleanupElement` leaves its argument in. -/
def Unobserved (rd : RDState) (n : Node) : Prop :=
  rd.observersMap.lookup n = none ∧ n ∉ rd.updateQueue

/-- A step re-registers a cleaned node only by inserting it (or a
subtree containing it) into the document, where a watching child-list
or new-element observer makes it reactive again; `stepAvoids n`
excludes exactly that. -/
def stepAvoids (n : Node) (w : World) : DomStep → Prop
  | .mu (.insert p c) =>
      c ≠ n ∧ n ∉ descendants (applyMutDoc w.doc (.insert p c)) c
  | _ => True

/-- Every step of the run avoids re-inserting `n`. -/
def AvoidsAll (n : Node) : World → List DomStep → Prop
  | _, [] => True
  | w, s :: rest => stepAvoids n w s ∧ AvoidsAll n (domStep w s) rest

theorem keys_ne_lookup_none {α β : Type} [DecidableEq α] (m : List (α × β)) (k : α)
    (h : ∀ p ∈ m, p.1 ≠ k) : m.lookup k = none := by
  induction m with
  | nil => rfl
  | cons p rest ih =>
      obtain ⟨k', v'⟩ := p
      rw [List.lookup_cons]
      have hk : (k == k') = false := by
        simp only [beq_eq_false_iff_ne]
        exact fun he => h (k', v') (List.mem_cons_self _ _) he.symm
      simp only [hk]
      exact ih (fun q hq => h q (List.mem_cons_of_mem _ hq))

theorem makeReactive_unobserved (w : World) (c n : Node) (o : ReactiveOptions)
    (hu : Unobserved w.rd n) (hc : c ≠ n) :
    Unobserved (makeReactive w c o).rd n := by
  unfold makeReactive
  split
  · exact hu
  · refine ⟨?_, hu.2⟩
    show (addObserverL (addObserverL (addObserverL w.rd.observersMap
        c (Handle.attrH o.observeAttributes)) c Handle.contentH)
        c (Handle.childH o.observeSubtree)).lookup n = none
    rw [handlesOf_addObserverL_ne _ _ _ _ (fun h => hc h.symm),
      handlesOf_addObserverL_ne _ _ _ _ (fun h => hc h.symm),
      handlesOf_addObserverL_ne _ _ _ _ (fun h => hc h.symm)]
    exact hu.1

theorem foldl_makeReactive_unobserved (o : ReactiveOptions) (n : Node) :
    ∀ (l : List Node) (w : World), Unobserved w.rd n → (∀ x ∈ l, x ≠ n) →
      Unobserved ((l.foldl (fun w x => makeReactive w x o) w)).rd n := by
  intro l
  induction l with
  | nil => intro w hu _; exact hu
  | cons hd tl ih =>
      intro w hu hl
      rw [List.foldl_cons]
      exact ih _ (makeReactive_unobserved w hd n o hu (hl hd (List.mem_cons_self _ _)))
        (fun x hx => hl x (List.mem_cons_of_mem _ hx))

theorem makeReactiveSubtree_unobserved (w : World) (c n : Node) (o : ReactiveOptions)
    (hu : Unobserved w.rd n) (hc : c ≠ n) (hdesc : n ∉ descendants w.doc c) :
    Unobserved (makeReactiveSubtree w c o).rd n := by
  unfold makeReactiveSubtree
  have h1 : Unobserved (makeReactive w c o).rd n := makeReactive_unobserved w c n o hu hc
  have h2 : Unobserved ((descendants w.doc c).foldl
      (fun w x => makeReactive w x o) (makeReactive w c o)).rd n :=
    foldl_makeReactive_unobserved o n _ _ h1
      (fun x hx hxe => hdesc (hxe ▸ hx))
  refine ⟨?_, h2.2⟩
  show (addObserverL _ c (Handle.newElemH o)).lookup n = none
  rw [handlesOf_addObserverL_ne _ _ _ _ (fun h => hc h.symm)]
  exact h2.1

theorem cleanupElement_unobserved (rd : RDState) (r n : Node)
    (hu : Unobserved rd n) : Unobserved (cleanupElement rd r) n := by
  refine ⟨?_, ?_⟩
  · apply keys_ne_lookup_none
    intro p hp
    exact lookup_none_keys rd.observersMap n hu.1 p (List.mem_of_mem_filter hp)
  · intro hm
    exact hu.2 (List.mem_of_mem_filter hm)

theorem setAdd_not_mem (l : List Node) (x n : Node) (h : n ∉ l) (hx : x ≠ n) :
    n ∉ setAdd l x := by
  unfold setAdd
  split
  · exact h
  · intro hm
    rcases List.mem_append.mp hm with hm | hm
    · exact h hm
    · exact hx (List.mem_singleton.mp hm).symm

theorem applyReaction_unobserved (mu : Mutation) (w : World) (oh : Node × Handle)
    (n : Node) (hu : Unobserved w.rd n) (howner : oh.1 ≠ n)
    (hins : ∀ p c, mu = Mutation.insert p c →
      c ≠ n ∧ n ∉ descendants w.doc c) :
    Unobserved (applyReaction mu w oh).rd n
    ∧ ∀ ev ∈ (applyReaction mu w oh).events, ev ∈ w.events ∨ ev.target ≠ n := by
  obtain ⟨owner, h⟩ := oh
  simp only at howner
  cases mu with
  | setAttr t name =>
      cases h <;>
        first
        | exact ⟨hu, fun ev hv => Or.inl hv⟩
        | · refine ⟨⟨hu.1, setAdd_not_mem _ _ _ hu.2 howner⟩, ?_⟩
            intro ev hv
            rcases List.mem_append.mp hv with hv | hv
            · exact Or.inl hv
            · right
              rw [List.mem_singleton.mp hv]
              exact howner
  | setText host =>
      cases h <;>
        first
        | exact ⟨hu, fun ev hv => Or.inl hv⟩
        | · refine ⟨⟨hu.1, setAdd_not_mem _ _ _ hu.2 howner⟩, ?_⟩
            intro ev hv
            rcases List.mem_append.mp hv with hv | hv
            · exact Or.inl hv
            · right
              rw [List.mem_singleton.mp hv]
              exact howner
  | insert p c =>
      obtain ⟨hc, hdesc⟩ := hins p c rfl
      cases h with
      | attrH f => exact ⟨hu, fun ev hv => Or.inl hv⟩
      | contentH => exact ⟨hu, fun ev hv => Or.inl hv⟩
      | childH st =>
          have hmk := makeReactive_unobserved w c n {} hu hc
          have hmf := makeReactive_frame w c {}
          refine ⟨⟨hmk.1, setAdd_not_mem _ _ _ hmk.2 howner⟩, ?_⟩
          intro ev hv
          simp only [applyReaction, handleElementAdded] at hv
          rcases List.mem_append.mp hv with hv | hv
          · exact Or.inl (hmf.2.2 ▸ hv)
          · right
            rw [List.mem_singleton.mp hv]
            exact howner
      | newElemH o =>
          have hms := makeReactiveSubtree_unobserved w c n o hu hc hdesc
          have hmf := makeReactiveSubtree_frame w c o
          exact ⟨hms, fun ev hv => Or.inl (hmf.2.2 ▸ hv)⟩
  | remove p c =>
      cases h with
      | attrH f => exact ⟨hu, fun ev hv => Or.inl hv⟩
      | contentH => exact ⟨hu, fun ev hv => Or.inl hv⟩
      | newElemH o => exact ⟨hu, fun ev hv => Or.inl hv⟩
      | childH st =>
          have hcl := cleanupElement_unobserved w.rd c n hu
          refine ⟨⟨hcl.1, setAdd_not_mem _ _ _ hcl.2 howner⟩, ?_⟩
          intro ev hv
          rcases List.mem_append.mp hv with hv | hv
          · exact Or.inl hv
          · right
            rw [List.mem_singleton.mp hv]
            exact howner

theorem foldl_applyReaction_unobserved (mu : Mutation) (n : Node) :
    ∀ (pairs : List (Node × Handle)) (w : World),
      Unobserved w.rd n → (∀ pr ∈ pairs, pr.1 ≠ n) →
      (∀ p c, mu = Mutation.insert p c → c ≠ n ∧ n ∉ descendants w.doc c) →
      Unobserved ((pairs.foldl (applyReaction mu) w)).rd n
      ∧ ∀ ev ∈ (pairs.foldl (applyReaction mu) w).events,
          ev ∈ w.events ∨ ev.target ≠ n := by
  intro pairs
  induction pairs with
  | nil => intro w hu _ _; exact ⟨hu, fun ev hv => Or.inl hv⟩
  | cons hd tl ih =>
      intro w hu hpr hins
      rw [List.foldl_cons]
      obtain ⟨hu1, hev1⟩ := applyReaction_unobserved mu w hd n hu
        (hpr hd (List.mem_cons_self _ _)) hins
      have hdoc := (applyReaction_frame mu w hd).1
      obtain ⟨hu2, hev2⟩ := ih (applyReaction mu w hd) hu1
        (fun pr hm => hpr pr (List.mem_cons_of_mem _ hm))
        (fun p c he => hdoc ▸ hins p c he)
      refine ⟨hu2, fun ev hv => ?_⟩
      rcases hev2 ev hv with hv2 | hv2
      · exact hev1 ev hv2
      · exact Or.inr hv2

theorem matchingPairs_owner_key (d : Doc) (mu : Mutation) :
    ∀ (m : List (Node × List Handle)) (acc : List (Node × Handle)) (pr : Node × Handle),
      pr ∈ m.foldl
        (fun acc p =>
          acc ++ (p.2.filter (fun h => observes d p.1 h mu)).map (fun h => (p.1, h)))
        acc →
      pr ∈ acc ∨ pr.1 ∈ m.map Prod.fst := by
  intro m
  induction m with
  | nil => intro acc pr h; exact Or.inl h
  | cons hd tl ih =>
      intro acc pr h
      rw [List.foldl_cons] at h
      rcases ih _ pr h with h2 | h2
      · rcases List.mem_append.mp h2 with h3 | h3
        · exact Or.inl h3
        · right
          obtain ⟨hh, -, he⟩ := List.mem_map.mp h3
          rw [← he]
          exact List.mem_cons_self _ _
      · right
        exact List.mem_cons_of_mem _ h2

theorem mutStep_unobserved (w : World) (mu : Mutation) (n : Node)
    (hu : Unobserved w.rd n)
    (hins : ∀ p c, mu = Mutation.insert p c →
      c ≠ n ∧ n ∉ descendants (applyMutDoc w.doc mu) c) :
    Unobserved (mutStep w mu).rd n
    ∧ ∀ ev ∈ (mutStep w mu).events, ev ∈ w.events ∨ ev.target ≠ n := by
  unfold mutStep
  split
  · have hpr : ∀ pr ∈ matchingPairs (applyMutDoc w.doc mu) w.rd.observersMap mu,
        pr.1 ≠ n := by
      intro pr hm
      rcases matchingPairs_owner_key (applyMutDoc w.doc mu) mu
          w.rd.observersMap [] pr hm with h | h
      · simp at h
      · intro he
        obtain ⟨q, hq, hqe⟩ := List.mem_map.mp h
        exact lookup_none_keys _ _ hu.1 q hq (hqe.trans he)
    exact foldl_applyReaction_unobserved mu n _ { w with doc := applyMutDoc w.doc mu }
      hu hpr (fun p c he => hins p c he)
  · exact ⟨hu, fun ev hv => Or.inl hv⟩

theorem drain_unobserved (w : World) (n : Node) (hu : Unobserved w.rd n) :
    Unobserved (processUpdateQueue w).rd n
    ∧ ∀ ev ∈ (processUpdateQueue w).events, ev ∈ w.events ∨ ev.target ≠ n := by
  refine ⟨⟨hu.1, List.not_mem_nil n⟩, ?_⟩
  intro ev hv
  rcases List.mem_append.mp hv with hv | hv
  · exact Or.inl hv
  · right
    obtain ⟨x, hx, he⟩ := List.mem_map.mp hv
    rw [← he]
    exact fun hc => hu.2 (hc ▸ hx)

/-- A fresh world: empty document, no tracked nodes, idle scheduler. -/
def emptyWorld : World :=
  ⟨[], ⟨[], [], [], false⟩, ⟨[], [], false, false, []⟩, []⟩

/-- The world after making nodes 1 and 2 reactive and then cleaning up
node 2: node 1 keeps its observers, node 2 holds none. -/
def c7World : World :=
  { makeReactive (makeReactive emptyWorld 1 {}) 2 {} with
    rd := cleanupElement (makeReactive (makeReactive emptyWorld 1 {}) 2 {}).rd 2 }

/-- C7, counterexample to the claim as stated: after `cleanupElement(2)`,
node 2 can be re-inserted under the still-observed node 1 — an external
mutation — whereupon the child-list observer's handler makes 2 reactive
again (dom.ts line 185), and a subsequent attribute mutation on 2
dispatches `alphabet:attribute-change` on 2.  So semantic events for
mutations on a cleaned node are not gone *forever*. -/
theorem C7_counterexample :
    (⟨"alphabet:attribute-change", 2⟩ : DomEvent) ∈
      (domRun c7World [.mu (.insert 1 2), .mu (.setAttr 2 "x")]).events := by decide

/-- C7, amended: `cleanupElement(n)` disconnects every observation
handle held for `n`, removes `n` from the reactive-element tracking set
and from the pending intent queue; and afterwards no semantic event is
ever dispatched on `n` — however `n` is mutated externally and even
though it stays reachable — *as long as* no subsequent mutation inserts
`n` (or a subtree containing `n`) under a watched parent or root, since
such an insertion auto-re-registers `n` (see the counterexample). -/
theorem C7_cleanup_quiescence :
    (∀ (rd : RDState) (n : Node),
        (cleanupElement rd n).observersMap.lookup n = none
        ∧ n ∉ (cleanupElement rd n).reactiveElements
        ∧ n ∉ (cleanupElement rd n).updateQueue)
    ∧ (∀ (steps : List DomStep) (w : World) (n : Node),
        Unobserved w.rd n → AvoidsAll n w steps →
        Unobserved (domRun w steps).rd n
        ∧ ∀ ev ∈ (domRun w steps).events, ev ∈ w.events ∨ ev.target ≠ n) := by
  constructor
  · intro rd n
    refine ⟨?_, ?_, ?_⟩
    · apply keys_ne_lookup_none
      intro p hp
      have := List.of_mem_filter hp
      simpa using this
    · intro hm
      have := List.of_mem_filter hm
      simp at this
    · intro hm
      have := List.of_mem_filter hm
      simp at this
  · intro steps
    induction steps with
    | nil => intro w n hu _; exact ⟨hu, fun ev hv => Or.inl hv⟩
    | cons s rest ih =>
        intro w n hu ha
        obtain ⟨ha1, ha2⟩ := ha
        have hstep : Unobserved (domStep w s).rd n
            ∧ ∀ ev ∈ (domStep w s).events, ev ∈ w.events ∨ ev.target ≠ n := by
          cases s with
          | drain => exact drain_unobserved w n hu
          | mu m =>
              refine mutStep_unobserved w m n hu ?_
              intro p c he
              subst he
              exact ha1
        obtain ⟨hr, hev⟩ := ih (domStep w s) n hstep.1 ha2
        refine ⟨hr, fun ev hv => ?_⟩
        rcases hev ev hv with hv2 | hv2
        · exact hstep.2 ev hv2
        · exact Or.inr hv2

/-- Witness for C7: on a world in which node 2 has just been cleaned up
(node 1 still reactive), an external attribute mutation on 2 followed by
a drain dispatches no event on 2. -/
theorem C7_witness :
    ∀ ev ∈ (domRun c7World [.mu (.setAttr 2 "x"), .drain]).events,
      ev.target ≠ 2 := by
  intro ev hv
  have h := (C7_cleanup_quiescence.2 [.mu (.setAttr 2 "x"), .drain] c7World
    2 (by constructor <;> decide) (by exact ⟨trivial, trivial, trivial⟩)).2 ev hv
  rcases h with h | h
  · have he : c7World.events = [] := rfl
    rw [he] at h
    exact absurd h (List.not_mem_nil ev)
  · exact h

/-! ## Heap model of the constructor's deep clone (claim C9)

`JVal` trees cannot express reference identity, but claim C9 is about
aliasing: `this.target = this.deepClone(target)` (part_005 lines 13-16,
199-216) and the fact that later writes go to the clone, not to the
constructor argument.  Here JS objects live in an explicit heap:
`HVal` is a primitive or a reference to a heap node, a node is an
object's field table or an array's element list, and `deepClone` is the
source's recursion, allocating fresh addresses.  Observations of an
object graph are made per property path (`obsPath`), which determines
the tree up to reference identity: primitives at the leaves, and key
lists/lengths at the inner nodes. -/

/-- A heap address. -/
abbrev Addr := Nat

/-- A JS value in the heap model: a primitive, or a reference. -/
inductive HVal where
  | hUndefined
  | hNull
  | hBool (b : Bool)
  | hNum (n : Int)
  | hStr (s : String)
  | hRef (a : Addr)
  deriving DecidableEq

/-- A heap node: an object's property table or an array's elements. -/
inductive HNode where
  | obj (fields : List (String × HVal))
  | arr (elems : List HVal)
  deriving DecidableEq

/-- The heap: allocated nodes and the next free address. -/
structure Heap where
  mem : List (Addr × HNode)
  next : Addr
  deriving DecidableEq

/-- The addresses a value refers to (none, or one). -/
def valRefs : HVal → List Addr
  | .hRef a => [a]
  | _ => []

/-- The addresses a node's values refer to. -/
def nodeRefs : HNode → List Addr
  | .obj fs => fs.flatMap (fun p => valRefs p.2)
  | .arr es => es.flatMap valRefs

/-- Heap well-formedness: allocated addresses and all stored references
are below `next`, and addresses are unique. -/
def HeapWF (h : Heap) : Prop :=
  (∀ q ∈ h.mem, q.1 < h.next)
  ∧ (∀ q ∈ h.mem, ∀ r ∈ nodeRefs q.2, r < h.next)
  ∧ (h.mem.map Prod.fst).Nodup

/-- All references of a value lie below `B`. -/
def valRefsBelow (v : HVal) (B : Addr) : Prop := ∀ r ∈ valRefs v, r < B

mutual

/-- `ReactiveProxy.deepClone` (part_005 lines 199-216) in the heap
model: primitives are returned as they are; an object or array is
cloned field by field / element by element, each clone allocated at a
fresh address.  `fuel` bounds the recursion depth (the source would
overflow the stack on a cyclic input); `none` is fuel exhaustion or a
dangling reference. -/
def cloneVal (fuel : Nat) (h : Heap) (v : HVal) : Option (Heap × HVal) :=
  match fuel, v with
  | _, .hUndefined => some (h, .hUndefined)
  | _, .hNull => some (h, .hNull)
  | _, .hBool b => some (h, .hBool b)
  | _, .hNum n => some (h, .hNum n)
  | _, .hStr s => some (h, .hStr s)
  | 0, .hRef _ => none
  | fuel2 + 1, .hRef a =>
      match h.mem.lookup a with
      | none => none
      | some (.obj fs) =>
          match cloneFields fuel2 h fs with
          | none => none
          | some (h2, fs2) =>
              some (⟨h2.mem ++ [(h2.next, .obj fs2)], h2.next + 1⟩, .hRef h2.next)
      | some (.arr es) =>
          match cloneElems fuel2 h es with
          | none => none
          | some (h2, es2) =>
              some (⟨h2.mem ++ [(h2.next, .arr es2)], h2.next + 1⟩, .hRef h2.next)
termination_by (fuel, 0)

/-- Clone every element of an array in order. -/
def cloneElems (fuel : Nat) (h : Heap) (vs : List HVal) :
    Option (Heap × List HVal) :=
  match vs with
  | [] => some (h, [])
  | v :: rest =>
      match cloneVal fuel h v with
      | none => none
      | some (h2, v2) =>
          match cloneElems fuel h2 rest with
          | none => none
          | some (h3, vs2) => some (h3, v2 :: vs2)
termination_by (fuel, vs.length + 1)

/-- Clone every field of an object in order. -/
def cloneFields (fuel : Nat) (h : Heap) (vs : List (String × HVal)) :
    Option (Heap × List (String × HVal)) :=
  match vs with
  | [] => some (h, [])
  | (k, v) :: rest =>
      match cloneVal fuel h v with
      | none => none
      | some (h2, v2) =>
          match cloneFields fuel h2 rest with
          | none => none
          | some (h3, vs2) => some (h3, (k, v2) :: vs2)
termination_by (fuel, vs.length + 1)

end

/-- Property read on a heap node (objects by key, arrays by canonical
index; a missing property reads as `undefined`). -/
def hGetProp : HNode → String → HVal
  | .obj fs, k => (fs.lookup k).getD .hUndefined
  | .arr es, k => if isCanonIndex k then es.getD (strIndex k) .hUndefined else .hUndefined

/-- Walk a property path through the heap from a value. -/
def hGetPath (h : Heap) : HVal → List String → Option HVal
  | v, [] => some v
  | .hRef a, k :: ks =>
      match h.mem.lookup a with
      | none => none
      | some nd => hGetPath h (hGetProp nd k) ks
  | _, _ :: _ => none

/-- What is observable about a value without following it further: the
primitive itself, or the key list / length of the referenced node. -/
inductive Obs where
  | prim (v : HVal)
  | objNode (keys : List String)
  | arrNode (len : Nat)
  | dangling
  deriving DecidableEq

/-- Observe a value in a heap. -/
def observeAt (h : Heap) (v : HVal) : Obs :=
  match v with
  | .hRef a =>
      match h.mem.lookup a with
      | some (.obj fs) => .objNode (fs.map Prod.fst)
      | some (.arr es) => .arrNode es.length
      | none => .dangling
  | v => .prim v

/-- The observation of an object graph at a property path; two values
with equal observations at every path are structurally equal trees. -/
def obsPath (h : Heap) (v : HVal) (p : List String) : Option Obs :=
  (hGetPath h v p).map (observeAt h)

/-- Element write with padding, heap-model version. -/
def hListSetPad (es : List HVal) (i : Nat) (v : HVal) : List HVal :=
  if i < es.length then es.set i v
  else es ++ List.replicate (i - es.length) .hUndefined ++ [v]

/-- Property write on a heap node, mirroring the value-level `setProp`
(array `length` writes resize with holes; non-numeric extra properties
of arrays are not modelled in the heap development). -/
def hSetProp (nd : HNode) (k : String) (v : HVal) : HNode :=
  match nd with
  | .obj fs => .obj (assocPut fs k v)
  | .arr es =>
      if k = "length" then
        match v with
        | .hNum n => if 0 ≤ n ∧ n < 4294967296 then
            .arr (es.take n.toNat ++ List.replicate (n.toNat - es.length) .hUndefined)
          else .arr es
        | _ => .arr es
      else if isCanonIndex k then .arr (hListSetPad es (strIndex k) v)
      else .arr es

/-- Property deletion on a heap node (`deleteProperty` trap, part_005
lines 62-72): objects drop the key, arrays leave a hole. -/
def hDelProp (nd : HNode) (k : String) : HNode :=
  match nd with
  | .obj fs => .obj (fs.filter (fun p => decide (p.1 ≠ k)))
  | .arr es =>
      if isCanonIndex k ∧ strIndex k < es.length then .arr (es.set (strIndex k) .hUndefined)
      else .arr es

/-- Follow a path of property reads down to the address of the
container it ends at (how the nested proxies navigate before a write:
each `get` returns the child re-wrapped, each step a reference hop). -/
def navigate (h : Heap) : HVal → List String → Option Addr
  | .hRef a, [] => some a
  | .hRef a, k :: ks =>
      match h.mem.lookup a with
      | none => none
      | some nd => navigate h (hGetProp nd k) ks
  | _, _ => none

/-- In-place node replacement at an address. -/
def updateNode (h : Heap) (a : Addr) (nd : HNode) : Heap :=
  { h with mem := h.mem.map (fun q => if q.1 = a then (a, nd) else q) }

/-- One operation through the wrapper, heap-level: a property write at
a navigated container (the set trap / the final write of `set()`), a
deletion (the deleteProperty trap), or the allocation of a fresh empty
container into a property (the intermediate-container creation of
`set()`, lines 137-148). -/
inductive HOp where
  | write (path : List String) (k : String) (v : HVal)
  | del (path : List String) (k : String)
  | allocObj (path : List String) (k : String)
  | allocArr (path : List String) (k : String)

/-- Run one heap operation against the wrapper root. -/
def runOp (root : HVal) (h : Heap) : HOp → Heap
  | .write p k v =>
      match navigate h root p with
      | some a =>
          match h.mem.lookup a with
          | some nd => updateNode h a (hSetProp nd k v)
          | none => h
      | none => h
  | .del p k =>
      match navigate h root p with
      | some a =>
          match h.mem.lookup a with
          | some nd => updateNode h a (hDelProp nd k)
          | none => h
      | none => h
  | .allocObj p k =>
      match navigate h root p with
      | some a =>
          match h.mem.lookup a with
          | some nd =>
              updateNode ⟨h.mem ++ [(h.next, .obj [])], h.next + 1⟩ a
                (hSetProp nd k (.hRef h.next))
          | none => h
      | none => h
  | .allocArr p k =>
      match navigate h root p with
      | some a =>
          match h.mem.lookup a with
          | some nd =>
              updateNode ⟨h.mem ++ [(h.next, .arr [])], h.next + 1⟩ a
                (hSetProp nd k (.hRef h.next))
          | none => h
      | none => h

/-- Run a sequence of heap operations. -/
def runOps (root : HVal) (h : Heap) (ops : List HOp) : Heap :=
  ops.foldl (runOp root) h

theorem lookup_append {α β : Type} [DecidableEq α] (m1 m2 : List (α × β)) (k : α) :
    (m1 ++ m2).lookup k
      = match m1.lookup k with
        | some v => some v
        | none => m2.lookup k := by
  induction m1 with
  | nil => simp
  | cons p rest ih =>
      obtain ⟨k', v'⟩ := p
      simp only [List.cons_append, List.lookup_cons]
      by_cases h : (k == k') = true
      · simp [h]
      · simp only [Bool.not_eq_true] at h
        simp [h, ih]

theorem lookup_mem {α β : Type} [DecidableEq α] (m : List (α × β)) (k : α) (v : β)
    (h : m.lookup k = some v) : (k, v) ∈ m := by
  induction m with
  | nil => simp at h
  | cons p rest ih =>
      obtain ⟨k', v'⟩ := p
      rw [List.lookup_cons] at h
      by_cases hk : (k == k') = true
      · simp only [hk] at h
        injection h with h
        have : k = k' := by simpa using hk
        subst this h
        exact List.mem_cons_self _ _
      · simp only [Bool.not_eq_true] at hk
        rw [hk] at h
        exact List.mem_cons_of_mem _ (ih h)

/-- Heap extension: the new heap appends only fresh nodes, whose
addresses and references all lie in the freshly allocated range. -/
def HExt (h h2 : Heap) : Prop :=
  h.next ≤ h2.next
  ∧ ∃ extra, h2.mem = h.mem ++ extra
      ∧ (∀ q ∈ extra, h.next ≤ q.1 ∧ q.1 < h2.next)
      ∧ (∀ q ∈ extra, ∀ r ∈ nodeRefs q.2, h.next ≤ r ∧ r < h2.next)

theorem HExt.refl (h : Heap) : HExt h h :=
  ⟨le_refl _, [], by simp, by simp, by simp⟩

theorem HExt.trans {h1 h2 h3 : Heap} (a : HExt h1 h2) (b : HExt h2 h3) :
    HExt h1 h3 := by
  obtain ⟨le1, e1, he1, hb1, hr1⟩ := a
  obtain ⟨le2, e2, he2, hb2, hr2⟩ := b
  refine ⟨le1.trans le2, e1 ++ e2, ?_, ?_, ?_⟩
  · rw [he2, he1, List.append_assoc]
  · intro q hq
    rcases List.mem_append.mp hq with hq | hq
    · have := hb1 q hq
      exact ⟨this.1, lt_of_lt_of_le this.2 le2⟩
    · have := hb2 q hq
      exact ⟨le1.trans this.1, this.2⟩
  · intro q hq r hr
    rcases List.mem_append.mp hq with hq | hq
    · have := hr1 q hq r hr
      exact ⟨this.1, lt_of_lt_of_le this.2 le2⟩
    · have := hr2 q hq r hr
      exact ⟨le1.trans this.1, this.2⟩

/-- The part of a heap extension `monoObs` needs: only fresh addresses
are added (their references may point anywhere). -/
def KeysExt (h h2 : Heap) : Prop :=
  h.next ≤ h2.next ∧ ∃ extra, h2.mem = h.mem ++ extra ∧ ∀ q ∈ extra, h.next ≤ q.1

theorem HExt.keysExt {h h2 : Heap} (e : HExt h h2) : KeysExt h h2 := by
  obtain ⟨le, extra, hm, hb, -⟩ := e
  exact ⟨le, extra, hm, fun q hq => (hb q hq).1⟩

/-- Lookups below the old allocation bound are unchanged by a heap
extension. -/
theorem KeysExt.lowLookup {h h2 : Heap} (e : KeysExt h h2) (a : Addr)
    (ha : a < h.next) : h2.mem.lookup a = h.mem.lookup a := by
  obtain ⟨-, extra, hm, hb⟩ := e
  rw [hm, lookup_append]
  cases hl : h.mem.lookup a with
  | some nd => rfl
  | none =>
      exact keys_ne_lookup_none extra a
        (fun q hq he => absurd ha (by rw [← he]; exact not_lt.mpr (hb q hq)))

theorem hGetProp_refs (nd : HNode) (k : String) (r : Addr)
    (h : r ∈ valRefs (hGetProp nd k)) : r ∈ nodeRefs nd := by
  cases nd with
  | obj fs =>
      simp only [hGetProp] at h
      cases hl : fs.lookup k with
      | none => rw [hl] at h; simp [valRefs] at h
      | some v =>
          rw [hl] at h
          simp only [Option.getD_some] at h
          have hm := lookup_mem fs k v hl
          simp only [nodeRefs, List.mem_flatMap]
          exact ⟨(k, v), hm, h⟩
  | arr es =>
      simp only [hGetProp] at h
      split at h
      · by_cases hi : strIndex k < es.length
        · have : es.getD (strIndex k) .hUndefined ∈ es := by
            rw [List.getD_eq_getElem?_getD, List.getElem?_eq_getElem hi]
            exact List.getElem_mem hi
          simp only [nodeRefs, List.mem_flatMap]
          exact ⟨_, this, h⟩
        · rw [List.getD_eq_getElem?_getD, List.getElem?_eq_none (not_lt.mp hi)] at h
          simp [valRefs] at h
      · simp [valRefs] at h

theorem obsPath_prim (h h2 : Heap) (v : HVal) (hv : valRefs v = [])
    (p : List String) : obsPath h2 v p = obsPath h v p := by
  cases v with
  | hRef a => simp [valRefs] at hv
  | hUndefined => cases p <;> rfl
  | hNull => cases p <;> rfl
  | hBool b => cases p <;> rfl
  | hNum n => cases p <;> rfl
  | hStr s => cases p <;> rfl

/-- Heap extension preserves every observation of a value whose
references lie in the old heap (given the old heap's references are
closed below its bound). -/
theorem KeysExt.monoObs {h h2 : Heap} (e : KeysExt h h2)
    (hN : ∀ q ∈ h.mem, ∀ r ∈ nodeRefs q.2, r < h.next) :
    ∀ (p : List String) (v : HVal), valRefsBelow v h.next →
      obsPath h2 v p = obsPath h v p := by
  intro p
  induction p with
  | nil =>
      intro v hv
      cases v with
      | hRef a =>
          have ha : a < h.next := hv a (by simp [valRefs])
          simp only [obsPath, hGetPath, Option.map_some', observeAt]
          rw [e.lowLookup a ha]
      | hUndefined => rfl
      | hNull => rfl
      | hBool b => rfl
      | hNum n => rfl
      | hStr s => rfl
  | cons k ks ih =>
      intro v hv
      cases v with
      | hRef a =>
          have ha : a < h.next := hv a (by simp [valRefs])
          simp only [obsPath, hGetPath]
          rw [e.lowLookup a ha]
          cases hl : h.mem.lookup a with
          | none => rfl
          | some nd =>
              have hmem := lookup_mem _ _ _ hl
              have hrefs : valRefsBelow (hGetProp nd k) h.next :=
                fun r hr => hN _ hmem r (hGetProp_refs nd k r hr)
              exact ih (hGetProp nd k) hrefs
      | hUndefined => rfl
      | hNull => rfl
      | hBool b => rfl
      | hNum n => rfl
      | hStr s => rfl

/-- The full specification of `cloneVal` at a given fuel: on a
well-formed heap it extends the heap with fresh nodes only, returns a
value all of whose references are fresh (disjoint from every
pre-existing address), and every path observation of the clone in the
new heap equals that of the original in the old heap. -/
def CloneValSpec (fuel : Nat) : Prop :=
  ∀ (h : Heap) (v : HVal) (h2 : Heap) (v2 : HVal),
    HeapWF h → valRefsBelow v h.next →
    cloneVal fuel h v = some (h2, v2) →
    HeapWF h2 ∧ HExt h h2 ∧ valRefsBelow v2 h2.next
    ∧ (∀ r ∈ valRefs v2, h.next ≤ r)
    ∧ (∀ p, obsPath h2 v2 p = obsPath h v p)

/-- The corresponding specification of `cloneElems`. -/
def CloneElemsSpec (fuel : Nat) : Prop :=
  ∀ (h : Heap) (es : List HVal) (h2 : Heap) (es2 : List HVal),
    HeapWF h → (∀ v ∈ es, valRefsBelow v h.next) →
    cloneElems fuel h es = some (h2, es2) →
    HeapWF h2 ∧ HExt h h2 ∧ es2.length = es.length
    ∧ (∀ v ∈ es2, valRefsBelow v h2.next ∧ ∀ r ∈ valRefs v, h.next ≤ r)
    ∧ (∀ i p, obsPath h2 (es2.getD i .hUndefined) p = obsPath h (es.getD i .hUndefined) p)

/-- The corresponding specification of `cloneFields`. -/
def CloneFieldsSpec (fuel : Nat) : Prop :=
  ∀ (h : Heap) (fs : List (String × HVal)) (h2 : Heap) (fs2 : List (String × HVal)),
    HeapWF h → (∀ q ∈ fs, valRefsBelow q.2 h.next) →
    cloneFields fuel h fs = some (h2, fs2) →
    HeapWF h2 ∧ HExt h h2 ∧ fs2.map Prod.fst = fs.map Prod.fst
    ∧ (∀ q ∈ fs2, valRefsBelow q.2 h2.next ∧ ∀ r ∈ valRefs q.2, h.next ≤ r)
    ∧ (∀ k p, obsPath h2 ((fs2.lookup k).getD .hUndefined) p
        = obsPath h ((fs.lookup k).getD .hUndefined) p)

theorem cloneElems_spec_of_val (fuel : Nat) (hv : CloneValSpec fuel) :
    CloneElemsSpec fuel := by
  intro h es
  induction es generalizing h with
  | nil =>
      intro h2 es2 hwf _ hc
      simp only [cloneElems, Option.some.injEq, Prod.mk.injEq] at hc
      obtain ⟨hh, he⟩ := hc
      subst hh he
      exact ⟨hwf, HExt.refl h, rfl, by simp, fun i p => rfl⟩
  | cons v rest ih =>
      intro h2 es2 hwf hbelow hc
      simp only [cloneElems] at hc
      cases hc1 : cloneVal fuel h v with
      | none => rw [hc1] at hc; exact absurd hc (by simp)
      | some r1 =>
          obtain ⟨h1, v1⟩ := r1
          rw [hc1] at hc
          dsimp only at hc
          cases hc2 : cloneElems fuel h1 rest with
          | none => rw [hc2] at hc; exact absurd hc (by simp)
          | some r2 =>
              obtain ⟨hm, rest2⟩ := r2
              rw [hc2] at hc
              dsimp only at hc
              simp only [Option.some.injEq, Prod.mk.injEq] at hc
              obtain ⟨hh, he⟩ := hc
              subst hh he
              obtain ⟨wf1, ext1, below1, above1, obs1⟩ :=
                hv h v h1 v1 hwf (hbelow v (List.mem_cons_self _ _)) hc1
              obtain ⟨wf2, ext2, len2, vals2, obs2⟩ := ih h1 hm rest2 wf1
                (fun x hx => fun r hr =>
                  lt_of_lt_of_le (hbelow x (List.mem_cons_of_mem _ hx) r hr) ext1.1)
                hc2
              refine ⟨wf2, ext1.trans ext2, by simp [len2], ?_, ?_⟩
              · intro x hx
                rcases List.mem_cons.mp hx with hx | hx
                · subst hx
                  exact ⟨fun r hr => lt_of_lt_of_le (below1 r hr) ext2.1,
                    above1⟩
                · obtain ⟨hb, ha⟩ := vals2 x hx
                  exact ⟨hb, fun r hr => le_trans ext1.1 (ha r hr)⟩
              · intro i p
                cases i with
                | zero =>
                    show obsPath hm v1 p = obsPath h v p
                    rw [ext2.keysExt.monoObs wf1.2.1 p v1 below1]
                    exact obs1 p
                | succ j =>
                    show obsPath hm (rest2.getD j .hUndefined) p
                        = obsPath h (rest.getD j .hUndefined) p
                    rw [obs2 j p]
                    apply ext1.keysExt.monoObs hwf.2.1
                    by_cases hj : j < rest.length
                    · intro r hr
                      refine hbelow (rest.getD j .hUndefined) ?_ r hr
                      right
                      rw [List.getD_eq_getElem?_getD, List.getElem?_eq_getElem hj]
                      exact List.getElem_mem hj
                    · rw [List.getD_eq_getElem?_getD,
                        List.getElem?_eq_none (not_lt.mp hj)]
                      intro r hr
                      simp [valRefs] at hr

theorem cloneFields_spec_of_val (fuel : Nat) (hv : CloneValSpec fuel) :
    CloneFieldsSpec fuel := by
  intro h fs
  induction fs generalizing h with
  | nil =>
      intro h2 fs2 hwf _ hc
      simp only [cloneFields, Option.some.injEq, Prod.mk.injEq] at hc
      obtain ⟨hh, he⟩ := hc
      subst hh he
      exact ⟨hwf, HExt.refl h, rfl, by simp, fun k p => rfl⟩
  | cons q rest ih =>
      obtain ⟨k0, v0⟩ := q
      intro h2 fs2 hwf hbelow hc
      simp only [cloneFields] at hc
      cases hc1 : cloneVal fuel h v0 with
      | none => rw [hc1] at hc; exact absurd hc (by simp)
      | some r1 =>
          obtain ⟨h1, v1⟩ := r1
          rw [hc1] at hc
          dsimp only at hc
          cases hc2 : cloneFields fuel h1 rest with
          | none => rw [hc2] at hc; exact absurd hc (by simp)
          | some r2 =>
              obtain ⟨hm, rest2⟩ := r2
              rw [hc2] at hc
              dsimp only at hc
              simp only [Option.some.injEq, Prod.mk.injEq] at hc
              obtain ⟨hh, he⟩ := hc
              subst hh he
              obtain ⟨wf1, ext1, below1, above1, obs1⟩ :=
                hv h v0 h1 v1 hwf (hbelow (k0, v0) (List.mem_cons_self _ _)) hc1
              obtain ⟨wf2, ext2, keys2, vals2, obs2⟩ := ih h1 hm rest2 wf1
                (fun x hx => fun r hr =>
                  lt_of_lt_of_le (hbelow x (List.mem_cons_of_mem _ hx) r hr) ext1.1)
                hc2
              refine ⟨wf2, ext1.trans ext2, by simp [keys2], ?_, ?_⟩
              · intro x hx
                rcases List.mem_cons.mp hx with hx | hx
                · subst hx
                  exact ⟨fun r hr => lt_of_lt_of_le (below1 r hr) ext2.1, above1⟩
                · obtain ⟨hb, ha⟩ := vals2 x hx
                  exact ⟨hb, fun r hr => le_trans ext1.1 (ha r hr)⟩
              · intro k p
                rw [List.lookup_cons, List.lookup_cons]
                by_cases hk : (k == k0) = true
                · simp only [hk, Option.getD_some]
                  rw [ext2.keysExt.monoObs wf1.2.1 p v1 below1]
                  exact obs1 p
                · simp only [Bool.not_eq_true] at hk
                  simp only [hk]
                  rw [obs2 k p]
                  apply ext1.keysExt.monoObs hwf.2.1
                  cases hlk : rest.lookup k with
                  | none => intro r hr; simp [valRefs] at hr
                  | some w =>
                      intro r hr
                      exact hbelow (k, w) (List.mem_cons_of_mem _ (lookup_mem _ _ _ hlk))
                        r (by simpa using hr)

theorem lookup_fresh (m : List (Addr × HNode)) (n : Addr) (nd : HNode)
    (hb : ∀ q ∈ m, q.1 < n) : (m ++ [(n, nd)]).lookup n = some nd := by
  have hnone : m.lookup n = none := by
    apply keys_ne_lookup_none
    intro q hq
    exact Nat.ne_of_lt (hb q hq)
  rw [lookup_append, hnone]
  simp [List.lookup]

theorem keysExt_snoc (hm : Heap) (nd : HNode) :
    KeysExt hm ⟨hm.mem ++ [(hm.next, nd)], hm.next + 1⟩ :=
  ⟨Nat.le_succ _, [(hm.next, nd)], rfl, by simp⟩

theorem obsPath_nil (h : Heap) (v : HVal) : obsPath h v [] = some (observeAt h v) := by
  cases v <;> rfl

theorem observeAt_ref (h : Heap) (a : Addr) :
    observeAt h (.hRef a)
      = match h.mem.lookup a with
        | some (.obj fs) => .objNode (fs.map Prod.fst)
        | some (.arr es) => .arrNode es.length
        | none => .dangling := rfl

theorem obsPath_ref_cons (h : Heap) (a : Addr) (nd : HNode)
    (hl : h.mem.lookup a = some nd) (k : String) (ks : List String) :
    obsPath h (.hRef a) (k :: ks) = obsPath h (hGetProp nd k) ks := by
  simp only [obsPath, hGetPath]
  rw [hl]

/-- `cloneVal` meets its full specification at every fuel. -/
theorem cloneVal_spec : ∀ fuel, CloneValSpec fuel := by
  intro fuel
  induction fuel with
  | zero =>
      intro h v h2 v2 hwf hb hc
      cases v
      case hRef a => exact absurd hc (by simp [cloneVal])
      all_goals
        simp only [cloneVal, Option.some.injEq, Prod.mk.injEq] at hc
      all_goals
        obtain ⟨hh, hv2⟩ := hc
      all_goals
        subst hh hv2
      all_goals
        exact ⟨hwf, HExt.refl h, by intro r hr; simp [valRefs] at hr,
          by intro r hr; simp [valRefs] at hr, fun p => rfl⟩
  | succ n ih =>
      intro h v h2 v2 hwf hb hc
      cases v
      case hRef a =>
        simp only [cloneVal] at hc
        cases hl : h.mem.lookup a with
        | none => rw [hl] at hc; exact absurd hc (by simp)
        | some nd =>
            rw [hl] at hc
            cases nd with
            | obj fs =>
                dsimp only at hc
                cases hcf : cloneFields n h fs with
                | none => rw [hcf] at hc; exact absurd hc (by simp)
                | some r =>
                    obtain ⟨hm, fs2⟩ := r
                    rw [hcf] at hc
                    dsimp only at hc
                    simp only [Option.some.injEq, Prod.mk.injEq] at hc
                    obtain ⟨hh, hv2⟩ := hc
                    subst hh hv2
                    have hfs : ∀ q ∈ fs, valRefsBelow q.2 h.next := by
                      intro q hq r hr
                      refine hwf.2.1 (a, .obj fs) (lookup_mem _ _ _ hl) r ?_
                      simp only [nodeRefs, List.mem_flatMap]
                      exact ⟨q, hq, hr⟩
                    obtain ⟨wfm, extm, keys2, vals2, obs2⟩ :=
                      cloneFields_spec_of_val n ih h fs hm fs2 hwf hfs hcf
                    obtain ⟨lem, extram, hmm, hbm, hrm⟩ := extm
                    have hkext : KeysExt hm
                        ⟨hm.mem ++ [(hm.next, HNode.obj fs2)], hm.next + 1⟩ :=
                      keysExt_snoc hm _
                    have hlook2 : (⟨hm.mem ++ [(hm.next, HNode.obj fs2)],
                        hm.next + 1⟩ : Heap).mem.lookup hm.next
                          = some (HNode.obj fs2) :=
                      lookup_fresh _ _ _ wfm.1
                    refine ⟨⟨?_, ?_, ?_⟩, ⟨?_, extram ++ [(hm.next, .obj fs2)],
                      ?_, ?_, ?_⟩, ?_, ?_, ?_⟩
                    · intro q hq
                      rcases List.mem_append.mp hq with hq | hq
                      · exact lt_trans (wfm.1 q hq) (Nat.lt_succ_self _)
                      · simp only [List.mem_singleton] at hq
                        subst hq
                        exact Nat.lt_succ_self _
                    · intro q hq r hr
                      rcases List.mem_append.mp hq with hq | hq
                      · exact lt_trans (wfm.2.1 q hq r hr) (Nat.lt_succ_self _)
                      · simp only [List.mem_singleton] at hq
                        subst hq
                        simp only [nodeRefs, List.mem_flatMap] at hr
                        obtain ⟨q', hq', hr'⟩ := hr
                        exact lt_trans ((vals2 q' hq').1 r hr') (Nat.lt_succ_self _)
                    · rw [List.map_append]
                      refine List.Nodup.append wfm.2.2 (by simp) ?_
                      intro x hx hy
                      simp only [List.map_cons, List.map_nil,
                        List.mem_singleton] at hy
                      subst hy
                      obtain ⟨q, hq, hqx⟩ := List.mem_map.mp hx
                      exact Nat.ne_of_lt (wfm.1 q hq) hqx
                    · exact le_trans lem (Nat.le_succ _)
                    · show hm.mem ++ [(hm.next, HNode.obj fs2)]
                        = h.mem ++ (extram ++ [(hm.next, HNode.obj fs2)])
                      rw [hmm, List.append_assoc]
                    · intro q hq
                      rcases List.mem_append.mp hq with hq | hq
                      · have := hbm q hq
                        exact ⟨this.1, lt_trans this.2 (Nat.lt_succ_self _)⟩
                      · simp only [List.mem_singleton] at hq
                        subst hq
                        exact ⟨lem, Nat.lt_succ_self _⟩
                    · intro q hq r hr
                      rcases List.mem_append.mp hq with hq | hq
                      · have := hrm q hq r hr
                        exact ⟨this.1, lt_trans this.2 (Nat.lt_succ_self _)⟩
                      · simp only [List.mem_singleton] at hq
                        subst hq
                        simp only [nodeRefs, List.mem_flatMap] at hr
                        obtain ⟨q', hq', hr'⟩ := hr
                        have := vals2 q' hq'
                        exact ⟨this.2 r hr',
                          lt_trans (this.1 r hr') (Nat.lt_succ_self _)⟩
                    · intro r hr
                      simp only [valRefs, List.mem_singleton] at hr
                      subst hr
                      exact Nat.lt_succ_self _
                    · intro r hr
                      simp only [valRefs, List.mem_singleton] at hr
                      subst hr
                      exact lem
                    · intro p
                      cases p with
                      | nil =>
                          rw [obsPath_nil, obsPath_nil, observeAt_ref,
                            observeAt_ref, hlook2, hl]
                          dsimp only
                          rw [keys2]
                      | cons k ks =>
                          rw [obsPath_ref_cons _ _ _ hlook2,
                            obsPath_ref_cons _ _ _ hl]
                          simp only [hGetProp]
                          have hbX : valRefsBelow ((fs2.lookup k).getD .hUndefined)
                              hm.next := by
                            cases hfk : fs2.lookup k with
                            | none =>
                                intro r hr
                                simp [valRefs] at hr
                            | some w =>
                                simp only [Option.getD_some]
                                exact (vals2 (k, w) (lookup_mem _ _ _ hfk)).1
                          rw [hkext.monoObs wfm.2.1 ks _ hbX]
                          exact obs2 k ks
            | arr es =>
                dsimp only at hc
                cases hce : cloneElems n h es with
                | none => rw [hce] at hc; exact absurd hc (by simp)
                | some r =>
                    obtain ⟨hm, es2⟩ := r
                    rw [hce] at hc
                    dsimp only at hc
                    simp only [Option.some.injEq, Prod.mk.injEq] at hc
                    obtain ⟨hh, hv2⟩ := hc
                    subst hh hv2
                    have hes : ∀ v ∈ es, valRefsBelow v h.next := by
                      intro v hv2 r hr
                      refine hwf.2.1 (a, .arr es) (lookup_mem _ _ _ hl) r ?_
                      simp only [nodeRefs, List.mem_flatMap]
                      exact ⟨v, hv2, hr⟩
                    obtain ⟨wfm, extm, len2, vals2, obs2⟩ :=
                      cloneElems_spec_of_val n ih h es hm es2 hwf hes hce
                    obtain ⟨lem, extram, hmm, hbm, hrm⟩ := extm
                    have hkext : KeysExt hm
                        ⟨hm.mem ++ [(hm.next, HNode.arr es2)], hm.next + 1⟩ :=
                      keysExt_snoc hm _
                    have hlook2 : (⟨hm.mem ++ [(hm.next, HNode.arr es2)],
                        hm.next + 1⟩ : Heap).mem.lookup hm.next
                          = some (HNode.arr es2) :=
                      lookup_fresh _ _ _ wfm.1
                    refine ⟨⟨?_, ?_, ?_⟩, ⟨?_, extram ++ [(hm.next, .arr es2)],
                      ?_, ?_, ?_⟩, ?_, ?_, ?_⟩
                    · intro q hq
                      rcases List.mem_append.mp hq with hq | hq
                      · exact lt_trans (wfm.1 q hq) (Nat.lt_succ_self _)
                      · simp only [List.mem_singleton] at hq
                        subst hq
                        exact Nat.lt_succ_self _
                    · intro q hq r hr
                      rcases List.mem_append.mp hq with hq | hq
                      · exact lt_trans (wfm.2.1 q hq r hr) (Nat.lt_succ_self _)
                      · simp only [List.mem_singleton] at hq
                        subst hq
                        simp only [nodeRefs, List.mem_flatMap] at hr
                        obtain ⟨v', hv', hr'⟩ := hr
                        exact lt_trans ((vals2 v' hv').1 r hr') (Nat.lt_succ_self _)
                    · rw [List.map_append]
                      refine List.Nodup.append wfm.2.2 (by simp) ?_
                      intro x hx hy
                      simp only [List.map_cons, List.map_nil,
                        List.mem_singleton] at hy
                      subst hy
                      obtain ⟨q, hq, hqx⟩ := List.mem_map.mp hx
                      exact Nat.ne_of_lt (wfm.1 q hq) hqx
                    · exact le_trans lem (Nat.le_succ _)
                    · show hm.mem ++ [(hm.next, HNode.arr es2)]
                        = h.mem ++ (extram ++ [(hm.next, HNode.arr es2)])
                      rw [hmm, List.append_assoc]
                    · intro q hq
                      rcases List.mem_append.mp hq with hq | hq
                      · have := hbm q hq
                        exact ⟨this.1, lt_trans this.2 (Nat.lt_succ_self _)⟩
                      · simp only [List.mem_singleton] at hq
                        subst hq
                        exact ⟨lem, Nat.lt_succ_self _⟩
                    · intro q hq r hr
                      rcases List.mem_append.mp hq with hq | hq
                      · have := hrm q hq r hr
                        exact ⟨this.1, lt_trans this.2 (Nat.lt_succ_self _)⟩
                      · simp only [List.mem_singleton] at hq
                        subst hq
                        simp only [nodeRefs, List.mem_flatMap] at hr
                        obtain ⟨v', hv', hr'⟩ := hr
                        have := vals2 v' hv'
                        exact ⟨this.2 r hr',
                          lt_trans (this.1 r hr') (Nat.lt_succ_self _)⟩
                    · intro r hr
                      simp only [valRefs, List.mem_singleton] at hr
                      subst hr
                      exact Nat.lt_succ_self _
                    · intro r hr
                      simp only [valRefs, List.mem_singleton] at hr
                      subst hr
                      exact lem
                    · intro p
                      cases p with
                      | nil =>
                          rw [obsPath_nil, obsPath_nil, observeAt_ref,
                            observeAt_ref, hlook2, hl]
                          dsimp only
                          rw [len2]
                      | cons k ks =>
                          rw [obsPath_ref_cons _ _ _ hlook2,
                            obsPath_ref_cons _ _ _ hl]
                          simp only [hGetProp]
                          by_cases hck : isCanonIndex k = true
                          · rw [if_pos hck, if_pos hck]
                            have hbX : valRefsBelow
                                (es2.getD (strIndex k) .hUndefined) hm.next := by
                              by_cases hi : strIndex k < es2.length
                              · have hmem : es2.getD (strIndex k) .hUndefined ∈ es2 := by
                                  rw [List.getD_eq_getElem?_getD,
                                    List.getElem?_eq_getElem hi]
                                  exact List.getElem_mem hi
                                exact (vals2 _ hmem).1
                              · rw [List.getD_eq_getElem?_getD,
                                  List.getElem?_eq_none (not_lt.mp hi)]
                                intro r hr
                                simp [valRefs] at hr
                            rw [hkext.monoObs wfm.2.1 ks _ hbX]
                            exact obs2 (strIndex k) ks
                          · rw [if_neg hck, if_neg hck]
                            exact obsPath_prim h _ .hUndefined rfl ks
      all_goals
        simp only [cloneVal, Option.some.injEq, Prod.mk.injEq] at hc
      all_goals
        obtain ⟨hh, hv2⟩ := hc
      all_goals
        subst hh hv2
      all_goals
        exact ⟨hwf, HExt.refl h, by intro r hr; simp [valRefs] at hr,
          by intro r hr; simp [valRefs] at hr, fun p => rfl⟩

/-- Segment separation at bound `B`: the heap splits into a low part
(addresses below `B`) and a high part; high nodes refer only to high
addresses, low nodes only to low ones. -/
def SegOK (B : Addr) (h : Heap) : Prop :=
  B ≤ h.next
  ∧ (∀ q ∈ h.mem, q.1 < h.next)
  ∧ (∀ q ∈ h.mem, B ≤ q.1 → ∀ r ∈ nodeRefs q.2, B ≤ r ∧ r < h.next)
  ∧ (∀ q ∈ h.mem, q.1 < B → ∀ r ∈ nodeRefs q.2, r < B)

/-- An operation is clean at bound `B` when any value it writes refers
only to the high segment: no written value aliases the low (original)
object graph. -/
def opClean (B : Addr) (h : Heap) : HOp → Prop
  | .write _ _ v => ∀ r ∈ valRefs v, B ≤ r ∧ r < h.next
  | _ => True

/-- Every operation of the sequence is clean in the heap it runs in. -/
def CleanOps (B : Addr) (root : HVal) : Heap → List HOp → Prop
  | _, [] => True
  | h, op :: rest => opClean B h op ∧ CleanOps B root (runOp root h op) rest

theorem mem_assocPut {α β : Type} [DecidableEq α] (m : List (α × β)) (k : α)
    (v : β) (q : α × β) (h : q ∈ assocPut m k v) : q ∈ m ∨ q.2 = v := by
  induction m with
  | nil =>
      simp only [assocPut, List.mem_singleton] at h
      subst h
      exact Or.inr rfl
  | cons p rest ih =>
      obtain ⟨k', v'⟩ := p
      simp only [assocPut] at h
      by_cases hk : k' = k
      · rw [if_pos hk] at h
        rcases List.mem_cons.mp h with h | h
        · subst h
          exact Or.inr rfl
        · exact Or.inl (List.mem_cons_of_mem _ h)
      · rw [if_neg hk] at h
        rcases List.mem_cons.mp h with h | h
        · subst h
          exact Or.inl (List.mem_cons_self _ _)
        · rcases ih h with h | h
          · exact Or.inl (List.mem_cons_of_mem _ h)
          · exact Or.inr h

theorem hListSetPad_refs (es : List HVal) (i : Nat) (v : HVal) (r : Addr)
    (h : r ∈ (hListSetPad es i v).flatMap valRefs) :
    r ∈ es.flatMap valRefs ∨ r ∈ valRefs v := by
  simp only [hListSetPad] at h
  split at h
  · simp only [List.mem_flatMap] at h
    obtain ⟨x, hx, hrx⟩ := h
    rcases List.mem_or_eq_of_mem_set hx with hx | hx
    · exact Or.inl (List.mem_flatMap.mpr ⟨x, hx, hrx⟩)
    · subst hx
      exact Or.inr hrx
  · simp only [List.mem_flatMap] at h
    obtain ⟨x, hx, hrx⟩ := h
    rcases List.mem_append.mp hx with hx | hx
    · rcases List.mem_append.mp hx with hx | hx
      · exact Or.inl (List.mem_flatMap.mpr ⟨x, hx, hrx⟩)
      · rw [List.eq_of_mem_replicate hx] at hrx
        simp [valRefs] at hrx
    · simp only [List.mem_singleton] at hx
      subst hx
      exact Or.inr hrx

theorem hSetProp_refs (nd : HNode) (k : String) (v : HVal) (r : Addr)
    (h : r ∈ nodeRefs (hSetProp nd k v)) : r ∈ nodeRefs nd ∨ r ∈ valRefs v := by
  cases nd with
  | obj fs =>
      simp only [hSetProp, nodeRefs, List.mem_flatMap] at h ⊢
      obtain ⟨q, hq, hr⟩ := h
      rcases mem_assocPut fs k v q hq with hq | hq
      · exact Or.inl ⟨q, hq, hr⟩
      · rw [hq] at hr
        exact Or.inr hr
  | arr es =>
      simp only [hSetProp] at h
      split at h
      · split at h
        · split at h
          · simp only [nodeRefs, List.mem_flatMap] at h
            obtain ⟨x, hx, hrx⟩ := h
            rcases List.mem_append.mp hx with hx | hx
            · refine Or.inl ?_
              simp only [nodeRefs, List.mem_flatMap]
              exact ⟨x, List.mem_of_mem_take hx, hrx⟩
            · rw [List.eq_of_mem_replicate hx] at hrx
              simp [valRefs] at hrx
          · exact Or.inl h
        · exact Or.inl h
      · split at h
        · exact hListSetPad_refs es _ v r h
        · exact Or.inl h

theorem hDelProp_refs (nd : HNode) (k : String) (r : Addr)
    (h : r ∈ nodeRefs (hDelProp nd k)) : r ∈ nodeRefs nd := by
  cases nd with
  | obj fs =>
      simp only [hDelProp, nodeRefs, List.mem_flatMap] at h ⊢
      obtain ⟨q, hq, hr⟩ := h
      exact ⟨q, (List.mem_filter.mp hq).1, hr⟩
  | arr es =>
      simp only [hDelProp] at h
      split at h
      · simp only [nodeRefs, List.mem_flatMap] at h ⊢
        obtain ⟨x, hx, hrx⟩ := h
        rcases List.mem_or_eq_of_mem_set hx with hx | hx
        · exact ⟨x, hx, hrx⟩
        · rw [hx] at hrx
          simp [valRefs] at hrx
      · exact h

theorem lookup_map_update (m : List (Addr × HNode)) (a : Addr) (nd : HNode)
    (b : Addr) (hne : b ≠ a) :
    (m.map (fun q => if q.1 = a then (a, nd) else q)).lookup b = m.lookup b := by
  induction m with
  | nil => rfl
  | cons q rest ih =>
      obtain ⟨k', v'⟩ := q
      simp only [List.map_cons]
      by_cases hk : k' = a
      · rw [if_pos hk]
        have hb1 : (b == a) = false := beq_eq_false_iff_ne.mpr hne
        have hb2 : (b == k') = false :=
          beq_eq_false_iff_ne.mpr (fun he => hne (he.trans hk))
        rw [List.lookup_cons, List.lookup_cons]
        simp only [hb1, hb2]
        exact ih
      · rw [if_neg hk]
        rw [List.lookup_cons, List.lookup_cons]
        by_cases hb : (b == k') = true
        · simp only [hb]
        · simp only [Bool.not_eq_true] at hb
          simp only [hb]
          exact ih

theorem updateNode_segOK (B : Addr) (h : Heap) (a : Addr) (nd nd' : HNode)
    (hseg : SegOK B h) (ha : B ≤ a) (hmem : (a, nd) ∈ h.mem)
    (hrefs : ∀ r ∈ nodeRefs nd', B ≤ r ∧ r < h.next) :
    SegOK B (updateNode h a nd') := by
  obtain ⟨hBn, hkeys, hhigh, hlow⟩ := hseg
  simp only [updateNode, SegOK]
  refine ⟨hBn, ?_, ?_, ?_⟩
  · intro q' hq'
    obtain ⟨q, hq, hfq⟩ := List.mem_map.mp hq'
    subst hfq
    by_cases hqa : q.1 = a
    · rw [if_pos hqa]
      exact hkeys (a, nd) hmem
    · rw [if_neg hqa]
      exact hkeys q hq
  · intro q' hq' hBq' r hr
    obtain ⟨q, hq, hfq⟩ := List.mem_map.mp hq'
    subst hfq
    by_cases hqa : q.1 = a
    · rw [if_pos hqa] at hBq' hr
      exact hrefs r hr
    · rw [if_neg hqa] at hBq' hr
      exact hhigh q hq hBq' r hr
  · intro q' hq' hBq' r hr
    obtain ⟨q, hq, hfq⟩ := List.mem_map.mp hq'
    subst hfq
    by_cases hqa : q.1 = a
    · rw [if_pos hqa] at hBq'
      exact absurd hBq' (not_lt.mpr ha)
    · rw [if_neg hqa] at hBq' hr
      exact hlow q hq hBq' r hr

theorem heap_snoc_segOK (B : Addr) (h : Heap) (nd : HNode)
    (hseg : SegOK B h) (hnd : nodeRefs nd = []) :
    SegOK B ⟨h.mem ++ [(h.next, nd)], h.next + 1⟩ := by
  obtain ⟨hBn, hkeys, hhigh, hlow⟩ := hseg
  refine ⟨le_trans hBn (Nat.le_succ _), ?_, ?_, ?_⟩
  · intro q hq
    rcases List.mem_append.mp hq with hq | hq
    · exact lt_trans (hkeys q hq) (Nat.lt_succ_self _)
    · simp only [List.mem_singleton] at hq
      subst hq
      exact Nat.lt_succ_self _
  · intro q hq hBq r hr
    rcases List.mem_append.mp hq with hq | hq
    · have := hhigh q hq hBq r hr
      exact ⟨this.1, lt_trans this.2 (Nat.lt_succ_self _)⟩
    · simp only [List.mem_singleton] at hq
      subst hq
      rw [hnd] at hr
      simp at hr
  · intro q hq hBq r hr
    rcases List.mem_append.mp hq with hq | hq
    · exact hlow q hq hBq r hr
    · simp only [List.mem_singleton] at hq
      subst hq
      exact absurd hBq (not_lt.mpr hBn)

theorem navigate_high (B : Addr) (h : Heap) (hseg : SegOK B h) :
    ∀ (p : List String) (v : HVal), (∀ r ∈ valRefs v, B ≤ r) →
      ∀ a, navigate h v p = some a → B ≤ a := by
  intro p
  induction p with
  | nil =>
      intro v hv a hn
      cases v
      case hRef a0 =>
        simp only [navigate, Option.some.injEq] at hn
        subst hn
        exact hv a0 (by simp [valRefs])
      all_goals simp [navigate] at hn
  | cons k ks ih =>
      intro v hv a hn
      cases v
      case hRef a0 =>
        simp only [navigate] at hn
        cases hl : h.mem.lookup a0 with
        | none => rw [hl] at hn; exact absurd hn (by simp)
        | some nd =>
            rw [hl] at hn
            dsimp only at hn
            have ha0 : B ≤ a0 := hv a0 (by simp [valRefs])
            have hmem := lookup_mem _ _ _ hl
            refine ih (hGetProp nd k) ?_ a hn
            intro r hr
            exact (hseg.2.2.1 (a0, nd) hmem ha0 r (hGetProp_refs nd k r hr)).1
      all_goals simp [navigate] at hn

theorem runOp_frame (B : Addr) (root : HVal) (h : Heap) (op : HOp)
    (hseg : SegOK B h) (hroot : ∀ r ∈ valRefs root, B ≤ r)
    (hcl : opClean B h op) :
    SegOK B (runOp root h op)
    ∧ ∀ b < B, (runOp root h op).mem.lookup b = h.mem.lookup b := by
  cases op with
  | write p k v =>
      simp only [runOp]
      cases hnav : navigate h root p with
      | none => exact ⟨hseg, fun b _ => rfl⟩
      | some a =>
          dsimp only
          have haB : B ≤ a := navigate_high B h hseg p root hroot a hnav
          cases hl : h.mem.lookup a with
          | none => exact ⟨hseg, fun b _ => rfl⟩
          | some nd =>
              dsimp only
              have hmem := lookup_mem _ _ _ hl
              refine ⟨updateNode_segOK B h a nd (hSetProp nd k v) hseg haB hmem
                ?_, ?_⟩
              · intro r hr
                rcases hSetProp_refs nd k v r hr with hr | hr
                · exact hseg.2.2.1 (a, nd) hmem haB r hr
                · exact hcl r hr
              · intro b hb
                exact lookup_map_update h.mem a _ b (Nat.ne_of_lt (lt_of_lt_of_le hb haB))
  | del p k =>
      simp only [runOp]
      cases hnav : navigate h root p with
      | none => exact ⟨hseg, fun b _ => rfl⟩
      | some a =>
          dsimp only
          have haB : B ≤ a := navigate_high B h hseg p root hroot a hnav
          cases hl : h.mem.lookup a with
          | none => exact ⟨hseg, fun b _ => rfl⟩
          | some nd =>
              dsimp only
              have hmem := lookup_mem _ _ _ hl
              refine ⟨updateNode_segOK B h a nd (hDelProp nd k) hseg haB hmem
                ?_, ?_⟩
              · intro r hr
                exact hseg.2.2.1 (a, nd) hmem haB r (hDelProp_refs nd k r hr)
              · intro b hb
                exact lookup_map_update h.mem a _ b (Nat.ne_of_lt (lt_of_lt_of_le hb haB))
  | allocObj p k =>
      simp only [runOp]
      cases hnav : navigate h root p with
      | none => exact ⟨hseg, fun b _ => rfl⟩
      | some a =>
          dsimp only
          have haB : B ≤ a := navigate_high B h hseg p root hroot a hnav
          cases hl : h.mem.lookup a with
          | none => exact ⟨hseg, fun b _ => rfl⟩
          | some nd =>
              dsimp only
              have hmem := lookup_mem _ _ _ hl
              have hsegx : SegOK B ⟨h.mem ++ [(h.next, HNode.obj [])], h.next + 1⟩ :=
                heap_snoc_segOK B h _ hseg rfl
              have hmemx : (a, nd) ∈ (⟨h.mem ++ [(h.next, HNode.obj [])],
                  h.next + 1⟩ : Heap).mem :=
                List.mem_append.mpr (Or.inl hmem)
              refine ⟨updateNode_segOK B _ a nd (hSetProp nd k (.hRef h.next))
                hsegx haB hmemx ?_, ?_⟩
              · intro r hr
                rcases hSetProp_refs nd k (.hRef h.next) r hr with hr | hr
                · have := hseg.2.2.1 (a, nd) hmem haB r hr
                  exact ⟨this.1, lt_trans this.2 (Nat.lt_succ_self _)⟩
                · simp only [valRefs, List.mem_singleton] at hr
                  subst hr
                  exact ⟨hseg.1, Nat.lt_succ_self _⟩
              · intro b hb
                simp only [updateNode]
                rw [lookup_map_update _ a _ b (Nat.ne_of_lt (lt_of_lt_of_le hb haB))]
                exact (keysExt_snoc h _).lowLookup b (lt_of_lt_of_le hb hseg.1)
  | allocArr p k =>
      simp only [runOp]
      cases hnav : navigate h root p with
      | none => exact ⟨hseg, fun b _ => rfl⟩
      | some a =>
          dsimp only
          have haB : B ≤ a := navigate_high B h hseg p root hroot a hnav
          cases hl : h.mem.lookup a with
          | none => exact ⟨hseg, fun b _ => rfl⟩
          | some nd =>
              dsimp only
              have hmem := lookup_mem _ _ _ hl
              have hsegx : SegOK B ⟨h.mem ++ [(h.next, HNode.arr [])], h.next + 1⟩ :=
                heap_snoc_segOK B h _ hseg rfl
              have hmemx : (a, nd) ∈ (⟨h.mem ++ [(h.next, HNode.arr [])],
                  h.next + 1⟩ : Heap).mem :=
                List.mem_append.mpr (Or.inl hmem)
              refine ⟨updateNode_segOK B _ a nd (hSetProp nd k (.hRef h.next))
                hsegx haB hmemx ?_, ?_⟩
              · intro r hr
                rcases hSetProp_refs nd k (.hRef h.next) r hr with hr | hr
                · have := hseg.2.2.1 (a, nd) hmem haB r hr
                  exact ⟨this.1, lt_trans this.2 (Nat.lt_succ_self _)⟩
                · simp only [valRefs, List.mem_singleton] at hr
                  subst hr
                  exact ⟨hseg.1, Nat.lt_succ_self _⟩
              · intro b hb
                simp only [updateNode]
                rw [lookup_map_update _ a _ b (Nat.ne_of_lt (lt_of_lt_of_le hb haB))]
                exact (keysExt_snoc h _).lowLookup b (lt_of_lt_of_le hb hseg.1)

theorem runOps_frame (B : Addr) (root : HVal)
    (hroot : ∀ r ∈ valRefs root, B ≤ r) :
    ∀ (ops : List HOp) (h : Heap), SegOK B h → CleanOps B root h ops →
      SegOK B (runOps root h ops)
      ∧ ∀ b < B, (runOps root h ops).mem.lookup b = h.mem.lookup b := by
  intro ops
  induction ops with
  | nil => exact fun h hseg _ => ⟨hseg, fun _ _ => rfl⟩
  | cons op rest ih =>
      intro h hseg hcl
      obtain ⟨hcl1, hcl2⟩ := hcl
      obtain ⟨hseg1, hlow1⟩ := runOp_frame B root h op hseg hroot hcl1
      obtain ⟨hseg2, hlow2⟩ := ih (runOp root h op) hseg1 hcl2
      refine ⟨hseg2, ?_⟩
      intro b hb
      show (runOps root (runOp root h op) rest).mem.lookup b = h.mem.lookup b
      rw [hlow2 b hb, hlow1 b hb]

theorem obsPath_low (B : Addr) (h h2 : Heap)
    (hlk : ∀ b < B, h2.mem.lookup b = h.mem.lookup b)
    (hlc : ∀ q ∈ h.mem, q.1 < B → ∀ r ∈ nodeRefs q.2, r < B) :
    ∀ (p : List String) (v : HVal), valRefsBelow v B →
      obsPath h2 v p = obsPath h v p := by
  intro p
  induction p with
  | nil =>
      intro v hv
      cases v
      case hRef a =>
        rw [obsPath_nil, obsPath_nil, observeAt_ref, observeAt_ref,
          hlk a (hv a (by simp [valRefs]))]
      all_goals rfl
  | cons k ks ih =>
      intro v hv
      cases v
      case hRef a =>
        have ha : a < B := hv a (by simp [valRefs])
        simp only [obsPath, hGetPath]
        rw [hlk a ha]
        cases hl : h.mem.lookup a with
        | none => rfl
        | some nd =>
            have hmem := lookup_mem _ _ _ hl
            exact ih (hGetProp nd k)
              (fun r hr => hlc (a, nd) hmem ha r (hGetProp_refs nd k r hr))
      all_goals rfl

theorem hext_segOK {h h2 : Heap} (hwf : HeapWF h) (wf2 : HeapWF h2)
    (e : HExt h h2) : SegOK h.next h2 := by
  obtain ⟨le, extra, hm, hb, hr⟩ := e
  refine ⟨le, wf2.1, ?_, ?_⟩
  · intro q hq hBq r hrq
    rw [hm] at hq
    rcases List.mem_append.mp hq with hq | hq
    · exact absurd hBq (not_le.mpr (hwf.1 q hq))
    · exact hr q hq r hrq
  · intro q hq hBq r hrq
    rw [hm] at hq
    rcases List.mem_append.mp hq with hq | hq
    · exact hwf.2.1 q hq r hrq
    · exact absurd hBq (not_lt.mpr (hb q hq).1)

/-- A two-node object graph, `{ a: { b: 1 } }`: the root object holds a
reference under `a` to a node with field `b` holding `1`. -/
def origHeap : Heap :=
  ⟨[(0, .obj [("a", .hRef 1)]), (1, .obj [("b", .hNum 1)])], 2⟩

def origRoot : HVal := .hRef 0

/-- The heap after `deepClone` of the example root: the two original
nodes plus two fresh copies. -/
def clonedHeap : Heap :=
  ⟨[(0, .obj [("a", .hRef 1)]), (1, .obj [("b", .hNum 1)]),
    (2, .obj [("b", .hNum 1)]), (3, .obj [("a", .hRef 2)])], 4⟩

def cloneRoot : HVal := .hRef 3

theorem clone_example :
    cloneVal 10 origHeap origRoot = some (clonedHeap, cloneRoot) := by
  simp [cloneVal, cloneFields, origHeap, origRoot, clonedHeap, cloneRoot,
    List.lookup]

/-- C9, counterexample: the constructor's deep clone alone does not
make the original immune to every later operation through the wrapper.
For `{ a: { b: 1 } }`, writing the original's inner node into the clone
(`proxy.c = original.a`, the clean parse of which is the heap write of a
reference below the clone segment) and then writing through that alias
(`set("c.b", 2)`) changes the original graph's observation at path
`a.b` from `1` to `2`: the original object passed to the constructor is
mutated. -/
theorem C9_counterexample :
    cloneVal 10 origHeap origRoot = some (clonedHeap, cloneRoot)
    ∧ obsPath origHeap origRoot ["a", "b"] = some (.prim (.hNum 1))
    ∧ obsPath (runOps cloneRoot clonedHeap
        [.write [] "c" (.hRef 1), .write ["c"] "b" (.hNum 2)])
        origRoot ["a", "b"]
      = some (.prim (.hNum 2)) :=
  ⟨clone_example, by decide, by decide⟩

/-- C9: the `ReactiveProxy` constructor deep-clones its input
(part_005 lines 13-16, 199-216), so `getTarget()` is a structurally
equal copy sharing no heap address with the original, and every
sequence of wrapper operations (proxy writes, `set()` navigation
including its intermediate-container allocations, and deletions) that
never writes a value aliasing the original graph leaves every
observation of the original object exactly as it was before
construction. -/
theorem C9_constructor_clone_isolation (fuel : Nat) (h h2 : Heap)
    (v v2 : HVal) (hwf : HeapWF h) (hb : valRefsBelow v h.next)
    (hc : cloneVal fuel h v = some (h2, v2)) :
    (∀ p, obsPath h2 v2 p = obsPath h v p)
    ∧ (∀ r ∈ valRefs v2, ∀ r' ∈ valRefs v, r ≠ r')
    ∧ (∀ ops, CleanOps h.next v2 h2 ops →
        ∀ w, valRefsBelow w h.next →
          ∀ p, obsPath (runOps v2 h2 ops) w p = obsPath h w p) := by
  obtain ⟨wf2, ext, below2, above2, obs⟩ :=
    cloneVal_spec fuel h v h2 v2 hwf hb hc
  refine ⟨obs, ?_, ?_⟩
  · intro r hr r' hr'
    exact Nat.ne_of_gt (lt_of_lt_of_le (hb r' hr') (above2 r hr))
  · intro ops hclean w hw p
    have hseg : SegOK h.next h2 := hext_segOK hwf wf2 ext
    obtain ⟨-, hlow⟩ := runOps_frame h.next v2 above2 ops h2 hseg hclean
    rw [obsPath_low h.next h2 (runOps v2 h2 ops) hlow hseg.2.2.2 p w hw]
    exact ext.keysExt.monoObs hwf.2.1 p w hw

/-- C9, witness: the clone-isolation theorem applied to the concrete
graph `{ a: { b: 1 } }` and the clean wrapper write `proxy.c = 5`: the
original root still observes `1` at path `a.b`. -/
theorem C9_witness :
    HeapWF origHeap
    ∧ valRefsBelow origRoot origHeap.next
    ∧ obsPath (runOps cloneRoot clonedHeap [.write [] "c" (.hNum 5)])
        origRoot ["a", "b"]
      = obsPath origHeap origRoot ["a", "b"] := by
  refine ⟨by unfold HeapWF; decide, by unfold valRefsBelow; decide, ?_⟩
  exact (C9_constructor_clone_isolation 10 origHeap clonedHeap origRoot
      cloneRoot (by unfold HeapWF; decide) (by unfold valRefsBelow; decide)
      clone_example).2.2
    [.write [] "c" (.hNum 5)]
    ⟨fun r hr => absurd hr (by simp [valRefs]), trivial⟩
    origRoot (by unfold valRefsBelow; decide) ["a", "b"]

end Alphabet
